import Mathlib

/-!
Verification development for the `unifi-firmware-tool` repository
(`src/unifi-firmware-tool.ts`), a codec for a proprietary firmware
container format.

Buffers (`Node.js Buffer`) are modelled as `List Nat` of byte values.
Every read helper mirrors the semantics of the corresponding Node
primitive used by the source:

* `bytesAt b o n` models `buf.subarray(o, o + n)` (clamping, never
  throwing);
* `asciiAt b o n` models `buf.toString("ascii", o, o + n)` — Node's
  `ascii` decoding clears the high bit of every byte (`byte & 0x7F`);
* `readU32d` / `readU32` model `buf.readUInt32BE(o)`, which throws a
  range error when `o + 4 > buf.length`; the `Except` variant is used
  where the source lets that exception escape (the parser), the total
  variant where the surrounding code guarantees in-bounds access
  (`locateHeader`, whose candidate offsets always satisfy
  `pos + 268 ≤ buf.length` before the stored CRC is read);
* `readCStringBytes` models the source's `readCString` (slice then cut
  at the first NUL); the source additionally UTF-8 decodes the bytes to
  a JS string, which no claim inspects, so the byte list is kept.
-/

def bytesAt (b : List Nat) (o n : Nat) : List Nat :=
  (b.drop o).take n

def asciiAt (b : List Nat) (o n : Nat) : List Nat :=
  (bytesAt b o n).map (· % 128)

def readCStringBytes (b : List Nat) (o n : Nat) : List Nat :=
  (bytesAt b o n).takeWhile (· ≠ 0)

def u32valL : List Nat → Nat
  | [a, b, c, d] => ((a * 256 + b) * 256 + c) * 256 + d
  | _ => 0

def readU32d (b : List Nat) (o : Nat) : Nat :=
  u32valL (bytesAt b o 4)

/-- Big-endian serialisation of a 32-bit value, as written by
`writeU32BE` in the source (`v >>> 0` reduces the argument mod 2^32). -/
def u32be (v : Nat) : List Nat :=
  [v / 2 ^ 24 % 256, v / 2 ^ 16 % 256, v / 2 ^ 8 % 256, v % 256]

def zeros (n : Nat) : List Nat := List.replicate n 0

/-- CRC-32 bit step: reflected IEEE 802.3 polynomial 0xEDB88320. -/
def crc32Step (c : Nat) : Nat :=
  if c % 2 = 1 then (c / 2) ^^^ 0xEDB88320 else c / 2

def crc32Byte (c b : Nat) : Nat :=
  crc32Step (crc32Step (crc32Step (crc32Step
    (crc32Step (crc32Step (crc32Step (crc32Step (c ^^^ b))))))))

/-- Left fold of `crc32Byte` over the bytes, with the accumulator
scrutinised at every step so that evaluation inside the kernel keeps a
bounded stack depth (the case split is the identity on `Nat`). -/
def crc32go : List Nat → Nat → Nat
  | [], c => c
  | b :: l, c =>
    match crc32Byte c b with
    | 0 => crc32go l 0
    | c' + 1 => crc32go l (c' + 1)

def crc32core (l : List Nat) : Nat :=
  crc32go l 0xFFFFFFFF

theorem crc32go_cons (b : Nat) (l : List Nat) (c : Nat) :
    crc32go (b :: l) c = crc32go l (crc32Byte c b) := by
  have step : crc32go (b :: l) c =
      (match crc32Byte c b with
       | 0 => crc32go l 0
       | c' + 1 => crc32go l (c' + 1)) := rfl
  rw [step]
  cases crc32Byte c b <;> rfl

/-- Model of `crc32u` in the source: standard CRC-32 of the bytes,
coerced to an unsigned 32-bit value (`crc32(b) >>> 0`). -/
def crc32u (l : List Nat) : Nat :=
  (crc32core l ^^^ 0xFFFFFFFF) % 2 ^ 32

/- Magic byte constants (exact ASCII bytes of the source's string
constants). -/

def magicOPEN : List Nat := [79, 80, 69, 78]
def magicPART : List Nat := [80, 65, 82, 84]
def magicEXEC : List Nat := [69, 88, 69, 67]
def magicENDdot : List Nat := [69, 78, 68, 46]
def magicENDS : List Nat := [69, 78, 68, 83]

/-- Errors thrown by the codec. `truncated o` stands for the Node range
error raised by `buf.readUInt32BE(o)` when `o + 4 > buf.length` (its
message carries the offending offset); the other three correspond to
the `throw new Error(...)` sites in `locateHeader` and `parseFirmware`.
The unknown-part-magic message interpolates only the magic string. -/
inductive ParseError
  | headerNotFound
  | unknownPartMagic (magic : List Nat)
  | badSignatureMagic
  | truncated (offset : Nat)
deriving DecidableEq, Repr

def readU32 (b : List Nat) (o : Nat) : Except ParseError Nat :=
  if o + 4 ≤ b.length then .ok (readU32d b o) else .error (.truncated o)

structure PartHeader where
  magic : List Nat
  name : List Nat
  memaddr : Nat
  index : Nat
  baseaddr : Nat
  entryaddr : Nat
  data_size : Nat
  part_size : Nat
deriving DecidableEq, Repr

structure PartInfo where
  header : PartHeader
  data : List Nat
  crcClaim : Nat
  crcCalc : Nat
  crcValid : Bool
deriving DecidableEq, Repr

structure FirmwareImage where
  version : List Nat
  parts : List PartInfo
  signatureValid : Bool
deriving DecidableEq, Repr

/-!
`locateHeader`: the source scans with `buf.indexOf(needle, start, "ascii")`
(exact byte matching) in two phases.  Phase 1 walks "OPEN" occurrences in
increasing order (restart offset `pos + 1`) and returns the first whose
candidate window passes the bounds + CRC self-check.  Phase 2 walks
"PART" occurrences (restart offset `pos + 4`) and tests `pos - 268` the
same way.  The loops advance their start offset by at least one each
iteration, so `buf.length + 1` steps of fuel are always sufficient; the
fuelled definitions below are proved adequate-fuel-invariant.
-/

def indexOfFrom (buf pat : List Nat) : Nat → Nat → Option Nat
  | 0, _ => none
  | fuel + 1, start =>
    if start + pat.length ≤ buf.length then
      if bytesAt buf start pat.length = pat then some start
      else indexOfFrom buf pat fuel (start + 1)
    else none

/-- Header self-check used by both phases of `locateHeader`: candidate
window in bounds, and the stored big-endian CRC at `p + 260` equals the
CRC-32 of bytes `[p, p + 260)`.  In the source the bounds guard of
phase 1 is explicit, and in phase 2 it is implied by the position of the
"PART" occurrence (`p + 268 = partPos ≤ buf.length - 4`); the stored-CRC
read is therefore always in bounds and is modelled with `readU32d`. -/
def headerCheck (buf : List Nat) (p : Nat) : Bool :=
  decide (p + 268 ≤ buf.length) &&
    decide (readU32d buf (p + 260) = crc32u (bytesAt buf p 260))

def openScan (buf : List Nat) : Nat → Nat → Option Nat
  | 0, _ => none
  | fuel + 1, start =>
    match indexOfFrom buf magicOPEN (buf.length + 1) start with
    | none => none
    | some pos =>
      if headerCheck buf pos then some pos
      else openScan buf fuel (pos + 1)

def partScan (buf : List Nat) : Nat → Nat → Option Nat
  | 0, _ => none
  | fuel + 1, start =>
    match indexOfFrom buf magicPART (buf.length + 1) start with
    | none => none
    | some pos =>
      if 268 ≤ pos ∧ headerCheck buf (pos - 268) = true then some (pos - 268)
      else partScan buf fuel (pos + 4)

def locateHeader (buf : List Nat) : Option Nat :=
  match openScan buf (buf.length + 1) 0 with
  | some p => some p
  | none => partScan buf (buf.length + 1) 0

/-!
Segment walk of `parseFirmware`.  Each iteration consumes at least
`56 + data_size + 8 ≥ 64` bytes, so `buf.length + 1` steps of fuel are
always sufficient; fuel exhaustion returns the same value as the loop
guard failing, and the adequacy lemma below shows the choice of fuel is
irrelevant once large enough.  The match cascade mirrors the source's
statement order, so the first out-of-bounds `readUInt32BE` determines
the reported offset.
-/

def parsePartsGo (buf : List Nat) : Nat → Nat → Except ParseError (List PartInfo × Nat)
  | 0, off => .ok ([], off)
  | fuel + 1, off =>
    if off + 12 ≤ buf.length then
      let magic := asciiAt buf off 4
      if magic = magicENDdot ∨ magic = magicENDS then .ok ([], off)
      else if magic = magicPART ∨ magic = magicEXEC then
        let name := readCStringBytes buf (off + 4) 16
        match readU32 buf (off + 32) with
        | .error e => .error e
        | .ok memaddr =>
        match readU32 buf (off + 36) with
        | .error e => .error e
        | .ok index =>
        match readU32 buf (off + 40) with
        | .error e => .error e
        | .ok baseaddr =>
        match readU32 buf (off + 44) with
        | .error e => .error e
        | .ok entryaddr =>
        match readU32 buf (off + 48) with
        | .error e => .error e
        | .ok data_size =>
        match readU32 buf (off + 52) with
        | .error e => .error e
        | .ok part_size =>
        match readU32 buf (off + 56 + data_size) with
        | .error e => .error e
        | .ok crcClaim =>
          let data := bytesAt buf (off + 56) data_size
          let crcCalc := crc32u (bytesAt buf off (56 + data_size))
          match parsePartsGo buf fuel (off + 56 + data_size + 8) with
          | .error e => .error e
          | .ok (rest, finalOff) =>
            .ok ({ header :=
                     { magic, name, memaddr, index, baseaddr, entryaddr,
                       data_size, part_size },
                   data, crcClaim, crcCalc,
                   crcValid := decide (crcClaim = crcCalc) } :: rest, finalOff)
      else .error (.unknownPartMagic magic)
    else .ok ([], off)

/-- Model of `parseFirmware`.  The debug header-CRC warning has no
effect on the result and is omitted.  `signatureValid` compares the
stored checksum with the CRC-32 of `[0, off)` — computed from the start
of the whole buffer, not from the header offset. -/
def parseFirmware (buf : List Nat) : Except ParseError FirmwareImage :=
  match locateHeader buf with
  | none => .error .headerNotFound
  | some headerOffset =>
    let version := readCStringBytes buf (headerOffset + 4) 256
    match parsePartsGo buf (buf.length + 1) (headerOffset + 268) with
    | .error e => .error e
    | .ok (parts, off) =>
      let sigMagic := asciiAt buf off 4
      if sigMagic = magicENDdot ∨ sigMagic = magicENDS then
        match readU32 buf (off + 4) with
        | .error e => .error e
        | .ok sigCrcStored =>
          .ok { version, parts,
                signatureValid := decide (sigCrcStored = crc32u (bytesAt buf 0 off)) }
      else .error .badSignatureMagic

deriving instance DecidableEq for Except

/-!
Encoder (`buildFirmware`).  The source allocates a zero-filled buffer of
size `268 + 12 + Σ (56 + dataLen + 8)` and then writes non-overlapping,
contiguous regions in ascending offset order; the net result is the
concatenation below.  Per region:

* header: "OPEN" at 0, then `min(255, version.length)` version bytes at
  4 (remaining version/pad bytes stay zero), then at 260 the CRC-32 of
  bytes `[0, 260)`, then 4 zero pad bytes — 268 bytes total;
* per segment at offset `off`: 4 magic bytes, at `off+4` up to 15 name
  bytes (bytes up to `off+32` stay zero), at `off+32/36/40/44` the four
  addressing fields, at `off+48` the payload length, at `off+52` the
  allocated size, at `off+56` the payload, then the CRC-32 of
  `[off, off+56+dataLen)` and 4 zero pad bytes;
* signature: "END." then the CRC-32 of everything before it, then 4
  zero pad bytes.

Strings are written with Node `ascii` encoding (each char code reduced
mod 256); names and the version are modelled as byte lists, so the
write is `take k` then `map (· % 256)`.  The source's `LayoutPart.magic`
only ever holds `"PART"` or `"EXEC"` (`parseLayout` / `autoLayout`), so
it is modelled as a two-variant tag.
-/

inductive PartMagic | part | exec
deriving DecidableEq, Repr

def magicBytes : PartMagic → List Nat
  | .part => magicPART
  | .exec => magicEXEC

structure LayoutPart where
  name : List Nat
  index : Nat
  baseaddr : Nat
  part_size : Nat
  memaddr : Nat
  entryaddr : Nat
  data : List Nat
  magic : PartMagic
deriving DecidableEq, Repr

def partHeaderBytes (p : LayoutPart) : List Nat :=
  magicBytes p.magic ++ ((p.name.take 15).map (· % 256)
    ++ (zeros (28 - (p.name.take 15).length)
    ++ (u32be p.memaddr ++ (u32be p.index ++ (u32be p.baseaddr
    ++ (u32be p.entryaddr ++ (u32be p.data.length ++ u32be p.part_size)))))))

def partBlock (p : LayoutPart) : List Nat :=
  partHeaderBytes p ++ (p.data
    ++ (u32be (crc32u (partHeaderBytes p ++ p.data)) ++ zeros 4))

def headerPre260 (version : List Nat) : List Nat :=
  magicOPEN ++ ((version.take 255).map (· % 256)
    ++ zeros (256 - (version.take 255).length))

def headerFull (version : List Nat) : List Nat :=
  headerPre260 version ++ (u32be (crc32u (headerPre260 version)) ++ zeros 4)

def buildBody (parts : List LayoutPart) (version : List Nat) : List Nat :=
  headerFull version ++ (parts.map partBlock).flatten

def buildFirmware (parts : List LayoutPart) (version : List Nat) : List Nat :=
  buildBody parts version
    ++ (magicENDdot ++ (u32be (crc32u (buildBody parts version)) ++ zeros 4))

/-- Decoded image of an encoded segment: what `parseFirmware` recovers
for a segment produced by `buildFirmware` (fields reduced mod 2^32 by
the 32-bit writes, name cut at the first NUL of its 16-byte window). -/
def encodedPartInfo (p : LayoutPart) : PartInfo :=
  { header :=
      { magic := magicBytes p.magic,
        name := ((p.name.take 15).map (· % 256)).takeWhile (· ≠ 0),
        memaddr := p.memaddr % 2 ^ 32,
        index := p.index % 2 ^ 32,
        baseaddr := p.baseaddr % 2 ^ 32,
        entryaddr := p.entryaddr % 2 ^ 32,
        data_size := p.data.length,
        part_size := p.part_size % 2 ^ 32 },
    data := p.data,
    crcClaim := crc32u (partHeaderBytes p ++ p.data),
    crcCalc := crc32u (partHeaderBytes p ++ p.data),
    crcValid := true }

def encodedVersion (version : List Nat) : List Nat :=
  ((version.take 255).map (· % 256)).takeWhile (· ≠ 0)

/-! Window arithmetic for `bytesAt`. -/

theorem length_zeros (n : Nat) : (zeros n).length = n :=
  List.length_replicate n 0

theorem length_u32be (v : Nat) : (u32be v).length = 4 := rfl

theorem length_bytesAt (b : List Nat) (o n : Nat) :
    (bytesAt b o n).length = min n (b.length - o) := by
  simp [bytesAt]

theorem bytesAt_append_right (a b : List Nat) (o n : Nat) :
    bytesAt (a ++ b) (a.length + o) n = bytesAt b o n := by
  unfold bytesAt
  rw [← List.drop_drop, List.drop_left]

theorem bytesAt_append_left (a b : List Nat) (o n : Nat) (h : o + n ≤ a.length) :
    bytesAt (a ++ b) o n = bytesAt a o n := by
  unfold bytesAt
  rw [List.drop_append_eq_append_drop, List.take_append_eq_append_take]
  have h1 : o - a.length = 0 := by omega
  have h2 : n - (a.drop o).length = 0 := by
    simp only [List.length_drop]; omega
  rw [h1, h2]
  simp

theorem bytesAt_mid (a b c : List Nat) :
    bytesAt (a ++ (b ++ c)) a.length b.length = b := by
  have := bytesAt_append_right a (b ++ c) 0 b.length
  rw [Nat.add_zero] at this
  rw [this]
  unfold bytesAt
  rw [List.drop_zero, List.take_left]

/-- Convenience form of `bytesAt_mid` taking the decomposition as
equations, so offsets can be discharged by `omega`/`simp`. -/
theorem bytesAt_of_split (buf a b c : List Nat) (o n : Nat)
    (hbuf : buf = a ++ (b ++ c)) (ho : o = a.length) (hn : n = b.length) :
    bytesAt buf o n = b := by
  subst hbuf ho hn; exact bytesAt_mid a b c

theorem bytesAt_add (l : List Nat) (o m n : Nat) :
    bytesAt l o (m + n) = bytesAt l o m ++ bytesAt l (o + m) n := by
  unfold bytesAt
  rw [← List.drop_drop]
  exact List.take_add ..

theorem bytesAt_zero_eq_take (l : List Nat) (n : Nat) :
    bytesAt l 0 n = l.take n := by
  simp [bytesAt]

theorem bytesAt_prefix (a b : List Nat) (n : Nat) (h : n = a.length) :
    bytesAt (a ++ b) 0 n = a := by
  subst h; rw [bytesAt_zero_eq_take, List.take_left]

/-! Facts about 32-bit reads and writes. -/

theorem u32valL_u32be (v : Nat) : u32valL (u32be v) = v % 2 ^ 32 := by
  simp only [u32valL, u32be]
  omega

theorem crc32u_lt (l : List Nat) : crc32u l < 2 ^ 32 :=
  Nat.mod_lt _ (by norm_num)

theorem readU32_eq_ok (b : List Nat) (o x : Nat) :
    readU32 b o = .ok x ↔ o + 4 ≤ b.length ∧ readU32d b o = x := by
  unfold readU32
  by_cases h : o + 4 ≤ b.length <;> simp [h]

theorem readU32_eq_error (b : List Nat) (o : Nat) (e : ParseError) :
    readU32 b o = .error e ↔ b.length < o + 4 ∧ e = .truncated o := by
  unfold readU32
  by_cases h : o + 4 ≤ b.length
  · simp only [if_pos h]
    constructor
    · intro hh; cases hh
    · intro hh; omega
  · simp only [if_neg h]
    constructor
    · intro hh; injection hh with hh; exact ⟨by omega, hh.symm⟩
    · intro hh; rw [hh.2]

theorem readU32d_of_split (buf a c : List Nat) (o v : Nat)
    (hbuf : buf = a ++ (u32be v ++ c)) (ho : o = a.length) :
    readU32d buf o = v % 2 ^ 32 := by
  unfold readU32d
  rw [bytesAt_of_split buf a (u32be v) c o 4 hbuf ho (length_u32be v).symm]
  exact u32valL_u32be v

theorem readU32_of_split (buf a c : List Nat) (o v : Nat)
    (hbuf : buf = a ++ (u32be v ++ c)) (ho : o = a.length) :
    readU32 buf o = .ok (v % 2 ^ 32) := by
  rw [readU32_eq_ok]
  refine ⟨?_, readU32d_of_split buf a c o v hbuf ho⟩
  subst hbuf ho
  simp [List.length_append, length_u32be]

/-! Reading a window that sits inside a prefix of the buffer. -/

theorem bytesAt_append_inner (a b : List Nat) (o n : Nat)
    (h : o + n ≤ a.length) :
    bytesAt (a ++ b) o n = bytesAt a o n :=
  bytesAt_append_left a b o n h

theorem asciiAt_append_right (a b : List Nat) (o n : Nat) :
    asciiAt (a ++ b) (a.length + o) n = asciiAt b o n := by
  unfold asciiAt
  rw [bytesAt_append_right]

/-- Reading a window that lies inside the first block after a prefix. -/
theorem read_in_first (pre blk s2 : List Nat) (k n : Nat)
    (hk : k + n ≤ blk.length) :
    bytesAt (pre ++ (blk ++ s2)) (pre.length + k) n = bytesAt blk k n := by
  rw [bytesAt_append_right, bytesAt_append_left _ _ _ _ hk]

/-! Lengths of the encoder pieces, and a right-associated decomposition
of an encoded segment block. -/

def nameZone (p : LayoutPart) : List Nat :=
  (p.name.take 15).map (· % 256)
    ++ zeros (28 - ((p.name.take 15).map (· % 256)).length)

def partTail (p : LayoutPart) : List Nat :=
  p.data ++ (u32be (crc32u (partHeaderBytes p ++ p.data)) ++ zeros 4)

theorem length_magicBytes (pm : PartMagic) : (magicBytes pm).length = 4 := by
  cases pm <;> rfl

theorem length_nameZone (p : LayoutPart) : (nameZone p).length = 28 := by
  simp only [nameZone, List.length_append, List.length_map, List.length_take,
    length_zeros]
  omega

theorem partHeaderBytes_eq (p : LayoutPart) :
    partHeaderBytes p =
      magicBytes p.magic ++ (nameZone p ++ (u32be p.memaddr ++ (u32be p.index
        ++ (u32be p.baseaddr ++ (u32be p.entryaddr
        ++ (u32be p.data.length ++ u32be p.part_size)))))) := by
  simp [partHeaderBytes, nameZone, List.append_assoc]

theorem partBlock_eq (p : LayoutPart) :
    partBlock p =
      magicBytes p.magic ++ (nameZone p ++ (u32be p.memaddr ++ (u32be p.index
        ++ (u32be p.baseaddr ++ (u32be p.entryaddr ++ (u32be p.data.length
        ++ (u32be p.part_size ++ partTail p))))))) := by
  simp [partBlock, partHeaderBytes_eq, partTail, List.append_assoc]

theorem length_partHeaderBytes (p : LayoutPart) :
    (partHeaderBytes p).length = 56 := by
  simp [partHeaderBytes_eq, length_magicBytes, length_nameZone, length_u32be]

theorem length_partBlock (p : LayoutPart) :
    (partBlock p).length = p.data.length + 64 := by
  simp only [partBlock, List.length_append, length_partHeaderBytes,
    length_u32be, length_zeros]
  omega

theorem length_headerPre260 (v : List Nat) : (headerPre260 v).length = 260 := by
  simp only [headerPre260, List.length_append, List.length_map,
    List.length_take, length_zeros, magicOPEN, List.length_cons,
    List.length_nil]
  omega

theorem length_headerFull (v : List Nat) : (headerFull v).length = 268 := by
  simp only [headerFull, List.length_append, length_headerPre260,
    length_u32be, length_zeros]

/-! Magic-byte facts. -/

theorem map_mod128_magicBytes (pm : PartMagic) :
    (magicBytes pm).map (· % 128) = magicBytes pm := by
  cases pm <;> decide

theorem magicBytes_ne_end (pm : PartMagic) :
    ¬(magicBytes pm = magicENDdot ∨ magicBytes pm = magicENDS) := by
  cases pm <;> decide

theorem magicBytes_part_or_exec (pm : PartMagic) :
    magicBytes pm = magicPART ∨ magicBytes pm = magicEXEC := by
  cases pm
  · exact Or.inl rfl
  · exact Or.inr rfl

theorem takeWhile_append_zeros (k : Nat) (hk : 0 < k) :
    ∀ l : List Nat, (l ++ zeros k).takeWhile (· ≠ 0) = l.takeWhile (· ≠ 0)
  | [] => by
    obtain ⟨k, rfl⟩ : ∃ m, k = m + 1 := ⟨k - 1, by omega⟩
    simp [zeros, List.replicate_succ, List.takeWhile_cons]
  | a :: l => by
    simp only [List.cons_append, List.takeWhile_cons]
    split
    · rw [takeWhile_append_zeros k hk l]
    · rfl

/-! Reads inside an encoded segment block. -/

theorem partBlock_read_magic (p : LayoutPart) :
    bytesAt (partBlock p) 0 4 = magicBytes p.magic := by
  refine bytesAt_of_split _ [] (magicBytes p.magic)
    (nameZone p ++ (u32be p.memaddr ++ (u32be p.index ++ (u32be p.baseaddr
      ++ (u32be p.entryaddr ++ (u32be p.data.length
      ++ (u32be p.part_size ++ partTail p)))))))
    0 4 ?_ rfl ?_
  · rw [partBlock_eq]; rfl
  · rw [length_magicBytes]

theorem partBlock_read_name (p : LayoutPart) :
    bytesAt (partBlock p) 4 16 =
      (p.name.take 15).map (· % 256)
        ++ zeros (16 - ((p.name.take 15).map (· % 256)).length) := by
  have hn : ((p.name.take 15).map (· % 256)).length ≤ 15 := by
    simp only [List.length_map, List.length_take]; omega
  have hz : nameZone p =
      ((p.name.take 15).map (· % 256)
        ++ zeros (16 - ((p.name.take 15).map (· % 256)).length)) ++ zeros 12 := by
    unfold nameZone zeros
    rw [List.append_assoc, ← List.replicate_add]
    congr 2
    omega
  refine bytesAt_of_split _ (magicBytes p.magic)
    ((p.name.take 15).map (· % 256)
      ++ zeros (16 - ((p.name.take 15).map (· % 256)).length))
    (zeros 12 ++ (u32be p.memaddr ++ (u32be p.index ++ (u32be p.baseaddr
      ++ (u32be p.entryaddr ++ (u32be p.data.length
      ++ (u32be p.part_size ++ partTail p)))))))
    4 16 ?_ ?_ ?_
  · rw [partBlock_eq, hz]
    simp [List.append_assoc]
  · rw [length_magicBytes]
  · simp only [List.length_append, length_zeros]
    omega

theorem partBlock_read_mem (p : LayoutPart) :
    bytesAt (partBlock p) 32 4 = u32be p.memaddr := by
  refine bytesAt_of_split _ (magicBytes p.magic ++ nameZone p)
    (u32be p.memaddr)
    (u32be p.index ++ (u32be p.baseaddr ++ (u32be p.entryaddr
      ++ (u32be p.data.length ++ (u32be p.part_size ++ partTail p)))))
    32 4 ?_ ?_ rfl
  · rw [partBlock_eq]; simp [List.append_assoc]
  · simp [length_magicBytes, length_nameZone]

theorem partBlock_read_index (p : LayoutPart) :
    bytesAt (partBlock p) 36 4 = u32be p.index := by
  refine bytesAt_of_split _
    (magicBytes p.magic ++ (nameZone p ++ u32be p.memaddr))
    (u32be p.index)
    (u32be p.baseaddr ++ (u32be p.entryaddr
      ++ (u32be p.data.length ++ (u32be p.part_size ++ partTail p))))
    36 4 ?_ ?_ rfl
  · rw [partBlock_eq]; simp [List.append_assoc]
  · simp [length_magicBytes, length_nameZone, length_u32be]

theorem partBlock_read_base (p : LayoutPart) :
    bytesAt (partBlock p) 40 4 = u32be p.baseaddr := by
  refine bytesAt_of_split _
    (magicBytes p.magic ++ (nameZone p ++ (u32be p.memaddr ++ u32be p.index)))
    (u32be p.baseaddr)
    (u32be p.entryaddr ++ (u32be p.data.length
      ++ (u32be p.part_size ++ partTail p)))
    40 4 ?_ ?_ rfl
  · rw [partBlock_eq]; simp [List.append_assoc]
  · simp [length_magicBytes, length_nameZone, length_u32be]

theorem partBlock_read_entry (p : LayoutPart) :
    bytesAt (partBlock p) 44 4 = u32be p.entryaddr := by
  refine bytesAt_of_split _
    (magicBytes p.magic ++ (nameZone p ++ (u32be p.memaddr
      ++ (u32be p.index ++ u32be p.baseaddr))))
    (u32be p.entryaddr)
    (u32be p.data.length ++ (u32be p.part_size ++ partTail p))
    44 4 ?_ ?_ rfl
  · rw [partBlock_eq]; simp [List.append_assoc]
  · simp [length_magicBytes, length_nameZone, length_u32be]

theorem partBlock_read_dsize (p : LayoutPart) :
    bytesAt (partBlock p) 48 4 = u32be p.data.length := by
  refine bytesAt_of_split _
    (magicBytes p.magic ++ (nameZone p ++ (u32be p.memaddr
      ++ (u32be p.index ++ (u32be p.baseaddr ++ u32be p.entryaddr)))))
    (u32be p.data.length)
    (u32be p.part_size ++ partTail p)
    48 4 ?_ ?_ rfl
  · rw [partBlock_eq]; simp [List.append_assoc]
  · simp [length_magicBytes, length_nameZone, length_u32be]

theorem partBlock_read_psize (p : LayoutPart) :
    bytesAt (partBlock p) 52 4 = u32be p.part_size := by
  refine bytesAt_of_split _
    (magicBytes p.magic ++ (nameZone p ++ (u32be p.memaddr
      ++ (u32be p.index ++ (u32be p.baseaddr ++ (u32be p.entryaddr
      ++ u32be p.data.length))))))
    (u32be p.part_size)
    (partTail p)
    52 4 ?_ ?_ rfl
  · rw [partBlock_eq]; simp [List.append_assoc]
  · simp [length_magicBytes, length_nameZone, length_u32be]

theorem partBlock_read_hdrdata (p : LayoutPart) :
    bytesAt (partBlock p) 0 (56 + p.data.length) =
      partHeaderBytes p ++ p.data := by
  refine bytesAt_of_split _ [] (partHeaderBytes p ++ p.data)
    (u32be (crc32u (partHeaderBytes p ++ p.data)) ++ zeros 4)
    0 (56 + p.data.length) ?_ rfl ?_
  · simp [partBlock, List.append_assoc]
  · simp [length_partHeaderBytes]

theorem partBlock_read_data (p : LayoutPart) :
    bytesAt (partBlock p) 56 p.data.length = p.data := by
  refine bytesAt_of_split _ (partHeaderBytes p) p.data
    (u32be (crc32u (partHeaderBytes p ++ p.data)) ++ zeros 4)
    56 p.data.length ?_ ?_ rfl
  · simp [partBlock, List.append_assoc]
  · rw [length_partHeaderBytes]

theorem partBlock_read_crc (p : LayoutPart) :
    bytesAt (partBlock p) (56 + p.data.length) 4 =
      u32be (crc32u (partHeaderBytes p ++ p.data)) := by
  refine bytesAt_of_split _ (partHeaderBytes p ++ p.data)
    (u32be (crc32u (partHeaderBytes p ++ p.data))) (zeros 4)
    (56 + p.data.length) 4 ?_ ?_ rfl
  · simp [partBlock, List.append_assoc]
  · simp [length_partHeaderBytes]


/-- Walking the segment area of an encoder output: starting right after
any prefix `pre`, the parser decodes exactly the encoded segments and
stops at the terminal magic, returning the offset of the signature. -/
theorem parsePartsGo_build :
    ∀ (ps : List LayoutPart) (pre tail buf : List Nat) (fuel : Nat),
    (∀ p ∈ ps, p.data.length < 2 ^ 32) →
    buf = pre ++ (((ps.map partBlock).flatten) ++ (magicENDdot ++ tail)) →
    ps.length < fuel →
    parsePartsGo buf fuel pre.length =
      .ok (ps.map encodedPartInfo,
           pre.length + ((ps.map partBlock).flatten).length) := by
  intro ps
  induction ps with
  | nil =>
    intro pre tail buf fuel _ hbuf hfuel
    obtain ⟨f, rfl⟩ : ∃ f, fuel = f + 1 := ⟨fuel - 1, by omega⟩
    simp only [List.map_nil, List.flatten_nil, List.nil_append] at hbuf
    simp only [List.map_nil, List.flatten_nil, List.length_nil, Nat.add_zero]
    simp only [parsePartsGo]
    by_cases hg : pre.length + 12 ≤ buf.length
    · rw [if_pos hg]
      have hmagic : asciiAt buf pre.length 4 = magicENDdot := by
        unfold asciiAt
        rw [bytesAt_of_split buf pre magicENDdot tail pre.length 4 hbuf rfl
          rfl]
        decide
      simp only [hmagic]
      rw [if_pos (Or.inl trivial)]
    · rw [if_neg hg]
  | cons p rest ih =>
    intro pre tail buf fuel hlt hbuf hfuel
    obtain ⟨f, rfl⟩ : ∃ f, fuel = f + 1 := ⟨fuel - 1, by omega⟩
    have hd32 : p.data.length < 2 ^ 32 := hlt p (by simp)
    have hbuf1 : buf = pre ++ (partBlock p
        ++ (((rest.map partBlock).flatten) ++ (magicENDdot ++ tail))) := by
      rw [hbuf]; simp [List.append_assoc]
    set s2 := ((rest.map partBlock).flatten) ++ (magicENDdot ++ tail) with hs2
    have hlenblk : (partBlock p).length = p.data.length + 64 :=
      length_partBlock p
    have hlenbuf : buf.length =
        pre.length + ((p.data.length + 64) + s2.length) := by
      rw [hbuf1]; simp [List.length_append, hlenblk]
    have hg : pre.length + 12 ≤ buf.length := by omega
    have hnlen : ((p.name.take 15).map (· % 256)).length ≤ 15 := by
      simp only [List.length_map, List.length_take]; omega
    simp only [parsePartsGo]
    rw [if_pos hg]
    have hmagicB : bytesAt buf pre.length 4 = magicBytes p.magic := by
      rw [hbuf1]
      have h := read_in_first pre (partBlock p) s2 0 4 (by omega)
      rw [Nat.add_zero] at h
      rw [h, partBlock_read_magic]
    have hmagic : asciiAt buf pre.length 4 = magicBytes p.magic := by
      unfold asciiAt; rw [hmagicB, map_mod128_magicBytes]
    simp only [hmagic]
    rw [if_neg (magicBytes_ne_end p.magic),
      if_pos (magicBytes_part_or_exec p.magic)]
    have hname : readCStringBytes buf (pre.length + 4) 16 =
        ((p.name.take 15).map (· % 256)).takeWhile (· ≠ 0) := by
      unfold readCStringBytes
      rw [hbuf1, read_in_first pre (partBlock p) s2 4 16 (by omega),
        partBlock_read_name]
      exact takeWhile_append_zeros _ (by omega) _
    have hrmem : readU32 buf (pre.length + 32) = .ok (p.memaddr % 2 ^ 32) := by
      rw [readU32_eq_ok]
      refine ⟨by omega, ?_⟩
      unfold readU32d
      rw [hbuf1, read_in_first pre (partBlock p) s2 32 4 (by omega),
        partBlock_read_mem, u32valL_u32be]
    have hridx : readU32 buf (pre.length + 36) = .ok (p.index % 2 ^ 32) := by
      rw [readU32_eq_ok]
      refine ⟨by omega, ?_⟩
      unfold readU32d
      rw [hbuf1, read_in_first pre (partBlock p) s2 36 4 (by omega),
        partBlock_read_index, u32valL_u32be]
    have hrbase : readU32 buf (pre.length + 40) = .ok (p.baseaddr % 2 ^ 32) := by
      rw [readU32_eq_ok]
      refine ⟨by omega, ?_⟩
      unfold readU32d
      rw [hbuf1, read_in_first pre (partBlock p) s2 40 4 (by omega),
        partBlock_read_base, u32valL_u32be]
    have hrentry : readU32 buf (pre.length + 44) = .ok (p.entryaddr % 2 ^ 32) := by
      rw [readU32_eq_ok]
      refine ⟨by omega, ?_⟩
      unfold readU32d
      rw [hbuf1, read_in_first pre (partBlock p) s2 44 4 (by omega),
        partBlock_read_entry, u32valL_u32be]
    have hrdsize : readU32 buf (pre.length + 48) = .ok p.data.length := by
      rw [readU32_eq_ok]
      refine ⟨by omega, ?_⟩
      unfold readU32d
      rw [hbuf1, read_in_first pre (partBlock p) s2 48 4 (by omega),
        partBlock_read_dsize, u32valL_u32be]
      exact Nat.mod_eq_of_lt hd32
    have hrpsize : readU32 buf (pre.length + 52) = .ok (p.part_size % 2 ^ 32) := by
      rw [readU32_eq_ok]
      refine ⟨by omega, ?_⟩
      unfold readU32d
      rw [hbuf1, read_in_first pre (partBlock p) s2 52 4 (by omega),
        partBlock_read_psize, u32valL_u32be]
    have hrcrc : readU32 buf (pre.length + 56 + p.data.length) =
        .ok (crc32u (partHeaderBytes p ++ p.data)) := by
      rw [readU32_eq_ok]
      refine ⟨by omega, ?_⟩
      unfold readU32d
      have h1 : pre.length + 56 + p.data.length =
          pre.length + (56 + p.data.length) := by omega
      rw [h1, hbuf1,
        read_in_first pre (partBlock p) s2 (56 + p.data.length) 4 (by omega),
        partBlock_read_crc, u32valL_u32be,
        Nat.mod_eq_of_lt (crc32u_lt _)]
    have hdata : bytesAt buf (pre.length + 56) p.data.length = p.data := by
      rw [hbuf1, read_in_first pre (partBlock p) s2 56 p.data.length
        (by omega), partBlock_read_data]
    have hcalc : bytesAt buf pre.length (56 + p.data.length) =
        partHeaderBytes p ++ p.data := by
      rw [hbuf1]
      have h := read_in_first pre (partBlock p) s2 0 (56 + p.data.length)
        (by omega)
      rw [Nat.add_zero] at h
      rw [h, partBlock_read_hdrdata]
    have hrec : parsePartsGo buf f (pre.length + 56 + p.data.length + 8) =
        .ok (rest.map encodedPartInfo,
             (pre ++ partBlock p).length
               + ((rest.map partBlock).flatten).length) := by
      have hoff : pre.length + 56 + p.data.length + 8 =
          (pre ++ partBlock p).length := by
        simp only [List.length_append, hlenblk]; omega
      rw [hoff]
      refine ih (pre ++ partBlock p) tail buf f
        (fun q hq => hlt q (by simp [hq])) ?_ ?_
      · rw [hbuf1]; simp [List.append_assoc]
      · simp only [List.length_cons] at hfuel; omega
    simp only [hname, hrmem, hridx, hrbase, hrentry, hrdsize, hrpsize,
      hrcrc, hdata, hcalc, hrec]
    simp only [List.map_cons, List.flatten_cons, List.length_append,
      encodedPartInfo, hlenblk, decide_True]
    exact congrArg Except.ok (congrArg (Prod.mk _) (by omega))

theorem length_buildBody (ps : List LayoutPart) (v : List Nat) :
    (buildBody ps v).length = 268 + ((ps.map partBlock).flatten).length := by
  simp [buildBody, List.length_append, length_headerFull]

theorem length_buildFirmware (ps : List LayoutPart) (v : List Nat) :
    (buildFirmware ps v).length =
      280 + ((ps.map partBlock).flatten).length := by
  simp only [buildFirmware, List.length_append, length_buildBody,
    length_u32be, length_zeros, magicENDdot, List.length_cons,
    List.length_nil]
  omega

theorem parts_le_flatten (ps : List LayoutPart) :
    ps.length ≤ ((ps.map partBlock).flatten).length := by
  induction ps with
  | nil => simp
  | cons p rest ih =>
    simp only [List.map_cons, List.flatten_cons, List.length_append,
      List.length_cons, length_partBlock]
    omega

theorem buildFirmware_decomp (ps : List LayoutPart) (v : List Nat) :
    buildFirmware ps v =
      headerFull v ++ (((ps.map partBlock).flatten)
        ++ (magicENDdot
          ++ (u32be (crc32u (buildBody ps v)) ++ zeros 4))) := by
  simp [buildFirmware, buildBody, List.append_assoc]

theorem buildFirmware_open_decomp (ps : List LayoutPart) (v : List Nat) :
    buildFirmware ps v =
      magicOPEN ++ (((v.take 255).map (· % 256)
          ++ zeros (256 - ((v.take 255).map (· % 256)).length))
        ++ (u32be (crc32u (headerPre260 v))
          ++ (zeros 4 ++ (((ps.map partBlock).flatten)
            ++ (magicENDdot
              ++ (u32be (crc32u (buildBody ps v)) ++ zeros 4)))))) := by
  have h : headerPre260 v =
      magicOPEN ++ ((v.take 255).map (· % 256)
        ++ zeros (256 - ((v.take 255).map (· % 256)).length)) := by
    simp [headerPre260, List.length_map]
  simp [buildFirmware, buildBody, headerFull, h, List.append_assoc]

theorem locateHeader_build (ps : List LayoutPart) (v : List Nat) :
    locateHeader (buildFirmware ps v) = some 0 := by
  set buf := buildFirmware ps v with hbuf
  have hlen : 280 ≤ buf.length := by
    rw [hbuf, length_buildFirmware]; omega
  have hpre : buf = headerPre260 v
      ++ (u32be (crc32u (headerPre260 v))
        ++ (zeros 4 ++ (((ps.map partBlock).flatten)
          ++ (magicENDdot
            ++ (u32be (crc32u (buildBody ps v)) ++ zeros 4))))) := by
    rw [hbuf]
    simp [buildFirmware, buildBody, headerFull, List.append_assoc]
  have hopen4 : bytesAt buf 0 magicOPEN.length = magicOPEN := by
    rw [hbuf, buildFirmware_open_decomp ps v]
    exact bytesAt_prefix _ _ _ rfl
  have hidx : indexOfFrom buf magicOPEN (buf.length + 1) 0 = some 0 := by
    simp only [indexOfFrom]
    rw [if_pos (by simp [magicOPEN]; omega), if_pos hopen4]
  have hcheckStored : readU32d buf (0 + 260) = crc32u (headerPre260 v) := by
    have h := readU32d_of_split buf (headerPre260 v)
      (zeros 4 ++ (((ps.map partBlock).flatten)
        ++ (magicENDdot ++ (u32be (crc32u (buildBody ps v)) ++ zeros 4))))
      (0 + 260) (crc32u (headerPre260 v)) hpre
      (by rw [length_headerPre260])
    rw [h, Nat.mod_eq_of_lt (crc32u_lt _)]
  have hcheckWin : bytesAt buf 0 260 = headerPre260 v := by
    rw [hpre]
    exact bytesAt_prefix _ _ _ (length_headerPre260 v).symm
  have hcheck : headerCheck buf 0 = true := by
    unfold headerCheck
    rw [hcheckStored, hcheckWin]
    simp only [Bool.and_eq_true, decide_eq_true_eq]
    exact ⟨by omega, trivial⟩
  have hscan : openScan buf (buf.length + 1) 0 = some 0 := by
    simp only [openScan, hidx]
    rw [if_pos hcheck]
  simp only [locateHeader, hscan]

/-- Full decode-of-encode equality: the backbone of the round-trip and
layout claims. -/
theorem parse_build_eq (ps : List LayoutPart) (v : List Nat)
    (h : ∀ p ∈ ps, p.data.length < 2 ^ 32) :
    parseFirmware (buildFirmware ps v) =
      .ok { version := encodedVersion v,
            parts := ps.map encodedPartInfo,
            signatureValid := true } := by
  set buf := buildFirmware ps v with hbuf
  have hloc : locateHeader buf = some 0 := locateHeader_build ps v
  have hver : readCStringBytes buf (0 + 4) 256 = encodedVersion v := by
    unfold readCStringBytes
    have hb := buildFirmware_open_decomp ps v
    have hw : bytesAt buf (0 + 4) 256 =
        (v.take 255).map (· % 256)
          ++ zeros (256 - ((v.take 255).map (· % 256)).length) := by
      refine bytesAt_of_split buf magicOPEN _ _ (0 + 4) 256 hb rfl ?_
      simp only [List.length_append, List.length_map, List.length_take,
        length_zeros]
      omega
    rw [hw]
    unfold encodedVersion
    refine takeWhile_append_zeros _ ?_ _
    simp only [List.length_map, List.length_take]
    omega
  have hwalk : parsePartsGo buf (buf.length + 1) (0 + 268) =
      .ok (ps.map encodedPartInfo,
           268 + ((ps.map partBlock).flatten).length) := by
    have h268 : (0 : Nat) + 268 = (headerFull v).length := by
      rw [length_headerFull]
    rw [h268]
    have hres := parsePartsGo_build ps (headerFull v)
      (u32be (crc32u (buildBody ps v)) ++ zeros 4) buf (buf.length + 1) h
      (by rw [hbuf]; exact buildFirmware_decomp ps v)
      (by
        have h1 := parts_le_flatten ps
        have h2 := length_buildFirmware ps v
        rw [hbuf]; omega)
    rw [hres, length_headerFull]
  have hbodyLen : (buildBody ps v).length =
      268 + ((ps.map partBlock).flatten).length := length_buildBody ps v
  have hbody : buf = buildBody ps v
      ++ (magicENDdot ++ (u32be (crc32u (buildBody ps v)) ++ zeros 4)) := by
    rw [hbuf]; simp [buildFirmware]
  have hsig : asciiAt buf (268 + ((ps.map partBlock).flatten).length) 4 =
      magicENDdot := by
    unfold asciiAt
    rw [bytesAt_of_split buf (buildBody ps v) magicENDdot _ _ 4 hbody
      hbodyLen.symm rfl]
    decide
  have hstored : readU32 buf (268 + ((ps.map partBlock).flatten).length + 4) =
      .ok (crc32u (buildBody ps v)) := by
    have h1 := readU32_of_split buf (buildBody ps v ++ magicENDdot) (zeros 4)
      (268 + ((ps.map partBlock).flatten).length + 4)
      (crc32u (buildBody ps v))
      (by rw [hbody]; simp [List.append_assoc])
      (by simp [List.length_append, hbodyLen, magicENDdot])
    rw [h1, Nat.mod_eq_of_lt (crc32u_lt _)]
  have hwin : bytesAt buf 0 (268 + ((ps.map partBlock).flatten).length) =
      buildBody ps v := by
    rw [hbody]
    exact bytesAt_prefix _ _ _ hbodyLen.symm
  simp only [parseFirmware, hloc, hver, hwalk, hsig]
  rw [if_pos (Or.inl trivial)]
  simp only [hstored, hwin]
  simp

/-! Demonstration values (the spec's scenario: version "TEST-1.0", one
segment "kernel" with payload 01 02 03, index 0, base address 0x10000). -/

def demoPart : LayoutPart :=
  { name := [107, 101, 114, 110, 101, 108], index := 0, baseaddr := 0x10000,
    part_size := 0x1000, memaddr := 0, entryaddr := 0,
    data := [1, 2, 3], magic := .part }

def demoVersion : List Nat := [84, 69, 83, 84, 45, 49, 46, 48]

def demoFirmware : List Nat := buildFirmware [demoPart] demoVersion

set_option maxRecDepth 1000000

/-- C1: Round-trip: for every valid Layout (any segment list whose
payload lengths fit in 32 bits, any version), decoding the encoded
buffer succeeds with `signatureValid = true`, every segment
`crcValid = true`, and the segments in order with payloads intact. -/
theorem C1_round_trip (ps : List LayoutPart) (v : List Nat)
    (hw : ∀ p ∈ ps, p.data.length < 2 ^ 32) :
    ∃ img, parseFirmware (buildFirmware ps v) = .ok img
      ∧ img.signatureValid = true
      ∧ (∀ q ∈ img.parts, q.crcValid = true)
      ∧ img.parts.map (·.data) = ps.map (·.data)
      ∧ img.parts.map (·.header.magic) = ps.map (fun p => magicBytes p.magic) := by
  refine ⟨_, parse_build_eq ps v hw, rfl, ?_, ?_, ?_⟩
  · intro q hq
    obtain ⟨p, _, rfl⟩ := List.mem_map.1 hq
    rfl
  · simp [List.map_map, Function.comp, encodedPartInfo]
  · simp [List.map_map, Function.comp, encodedPartInfo]

/-- C1 witness: the spec's concrete scenario, hypotheses discharged by
evaluation. -/
theorem C1_round_trip_witness :
    (∀ p ∈ [demoPart], p.data.length < 2 ^ 32) ∧
    (∃ img, parseFirmware (buildFirmware [demoPart] demoVersion) = .ok img
      ∧ img.signatureValid = true
      ∧ (∀ q ∈ img.parts, q.crcValid = true)
      ∧ img.parts.map (·.data) = [demoPart].map (·.data)
      ∧ img.parts.map (·.header.magic)
          = [demoPart].map (fun p => magicBytes p.magic)) :=
  ⟨by decide, C1_round_trip [demoPart] demoVersion (by decide)⟩

/-- Padding fact: bytes [20, 32) of an encoded segment block are always
zero — the name write is capped at 15 bytes, so the region between the
16-byte name field and the addressing fields at byte 32 stays zero. -/
theorem partBlock_read_pad (p : LayoutPart) :
    bytesAt (partBlock p) 20 12 = zeros 12 := by
  have hn : ((p.name.take 15).map (· % 256)).length ≤ 15 := by
    simp only [List.length_map, List.length_take]; omega
  have hz : nameZone p =
      ((p.name.take 15).map (· % 256)
        ++ zeros (16 - ((p.name.take 15).map (· % 256)).length)) ++ zeros 12 := by
    unfold nameZone zeros
    rw [List.append_assoc, ← List.replicate_add]
    congr 2
    omega
  refine bytesAt_of_split _
    (magicBytes p.magic ++ ((p.name.take 15).map (· % 256)
      ++ zeros (16 - ((p.name.take 15).map (· % 256)).length)))
    (zeros 12)
    (u32be p.memaddr ++ (u32be p.index ++ (u32be p.baseaddr
      ++ (u32be p.entryaddr ++ (u32be p.data.length
      ++ (u32be p.part_size ++ partTail p))))))
    20 12 ?_ ?_ ?_
  · rw [partBlock_eq, hz]
    simp [List.append_assoc]
  · simp only [List.length_append, length_magicBytes, length_zeros]
    omega
  · rw [length_zeros]

/-- Reading a fixed window of the 56-byte segment header alone agrees
with reading it from the full block (the window stays inside). -/
theorem partHeaderBytes_read (p : LayoutPart) (k n : Nat)
    (h : k + n ≤ 56) :
    bytesAt (partHeaderBytes p) k n = bytesAt (partBlock p) k n := by
  have hb : partBlock p = partHeaderBytes p
      ++ (p.data ++ (u32be (crc32u (partHeaderBytes p ++ p.data))
        ++ zeros 4)) := rfl
  rw [hb, bytesAt_append_left _ _ _ _ (by rw [length_partHeaderBytes]; omega)]

/-- C9 (amended): the 56-byte segment header is 4 B magic, 16 B name,
12 B zero padding, then the four addressing fields at bytes 32..47, the
declared size at byte 48 and the allocated size at byte 52 — the same
offsets in the encoder's writes and the decoder's reads (the decoder
recovers exactly the encoded field values). -/
theorem C9_segment_header_layout (p : LayoutPart) (ps : List LayoutPart)
    (v : List Nat) (hw : ∀ q ∈ ps, q.data.length < 2 ^ 32) :
    (partHeaderBytes p).length = 56
    ∧ bytesAt (partHeaderBytes p) 0 4 = magicBytes p.magic
    ∧ bytesAt (partHeaderBytes p) 20 12 = zeros 12
    ∧ bytesAt (partHeaderBytes p) 32 4 = u32be p.memaddr
    ∧ bytesAt (partHeaderBytes p) 36 4 = u32be p.index
    ∧ bytesAt (partHeaderBytes p) 40 4 = u32be p.baseaddr
    ∧ bytesAt (partHeaderBytes p) 44 4 = u32be p.entryaddr
    ∧ bytesAt (partHeaderBytes p) 48 4 = u32be p.data.length
    ∧ bytesAt (partHeaderBytes p) 52 4 = u32be p.part_size
    ∧ (∃ img, parseFirmware (buildFirmware ps v) = .ok img
        ∧ img.parts.map (·.header.memaddr) = ps.map (·.memaddr % 2 ^ 32)
        ∧ img.parts.map (·.header.index) = ps.map (·.index % 2 ^ 32)
        ∧ img.parts.map (·.header.baseaddr) = ps.map (·.baseaddr % 2 ^ 32)
        ∧ img.parts.map (·.header.entryaddr) = ps.map (·.entryaddr % 2 ^ 32)
        ∧ img.parts.map (·.header.data_size) = ps.map (·.data.length)
        ∧ img.parts.map (·.header.part_size) = ps.map (·.part_size % 2 ^ 32)) := by
  refine ⟨length_partHeaderBytes p,
    (partHeaderBytes_read p 0 4 (by omega)).trans (partBlock_read_magic p),
    (partHeaderBytes_read p 20 12 (by omega)).trans (partBlock_read_pad p),
    (partHeaderBytes_read p 32 4 (by omega)).trans (partBlock_read_mem p),
    (partHeaderBytes_read p 36 4 (by omega)).trans (partBlock_read_index p),
    (partHeaderBytes_read p 40 4 (by omega)).trans (partBlock_read_base p),
    (partHeaderBytes_read p 44 4 (by omega)).trans (partBlock_read_entry p),
    (partHeaderBytes_read p 48 4 (by omega)).trans (partBlock_read_dsize p),
    (partHeaderBytes_read p 52 4 (by omega)).trans (partBlock_read_psize p),
    _, parse_build_eq ps v hw, ?_, ?_, ?_, ?_, ?_, ?_⟩ <;>
    simp [List.map_map, Function.comp, encodedPartInfo]

/-- C9 witness: concrete instantiation with hypotheses evaluated. -/
theorem C9_segment_header_layout_witness :
    (∀ q ∈ [demoPart], q.data.length < 2 ^ 32) ∧
    (partHeaderBytes demoPart).length = 56 :=
  ⟨by decide,
    (C9_segment_header_layout demoPart [demoPart] demoVersion (by decide)).1⟩

/-- Hand-built container whose single segment header carries the marker
value 0x11111111 at segment-header byte 20 (where the claim places the
first addressing field) and 0x22222222 at byte 32 (where the code reads
it). -/
def demo9 : List Nat :=
  headerFull []
    ++ ((magicPART ++ (zeros 16 ++ (u32be 0x11111111 ++ (zeros 8
        ++ (u32be 0x22222222 ++ (u32be 3 ++ (u32be 4 ++ (u32be 5
        ++ (u32be 0 ++ u32be 6)))))))))
      ++ (u32be 0 ++ (zeros 4 ++ (magicENDdot ++ (u32be 0 ++ zeros 4)))))

/-- C9 counterexample: decoding `demo9` succeeds and returns
`memaddr = 0x22222222`, the 32-bit value stored at byte 32 of the
segment header — not the value 0x11111111 stored at byte 20, where the
claim says the addressing fields start. -/
theorem C9_counterexample :
    (parseFirmware demo9).map (fun i => i.parts.map (·.header.memaddr))
        = .ok [0x22222222]
    ∧ readU32d demo9 (268 + 20) = 0x11111111
    ∧ (0x22222222 : Nat) ≠ 0x11111111 :=
  ⟨by decide, by decide, by decide⟩

/-- Inversion helper for the parser's error-propagating matches. -/
theorem matchE_ok {α : Type} (x : Except ParseError Nat)
    (g : Nat → Except ParseError α) (r : α)
    (h : (match x with
          | Except.error e => Except.error e
          | Except.ok v => g v) = .ok r) :
    ∃ v, x = .ok v ∧ g v = .ok r := by
  cases x with
  | error e => cases h
  | ok v => exact ⟨v, rfl, h⟩

/-- Inversion helper for the parser's recursive-call match. -/
theorem matchR_ok {α : Type}
    (x : Except ParseError (List PartInfo × Nat))
    (g : List PartInfo → Nat → Except ParseError α) (r : α)
    (h : (match x with
          | Except.error e => Except.error e
          | Except.ok (rest, finalOff) => g rest finalOff) = .ok r) :
    ∃ rest finalOff, x = .ok (rest, finalOff) ∧ g rest finalOff = .ok r := by
  cases x with
  | error e => cases h
  | ok v =>
    obtain ⟨rest, finalOff⟩ := v
    exact ⟨rest, finalOff, rfl, h⟩

/-- Success inversion for one step of the segment walk. -/
theorem parsePartsGo_succ_ok (buf : List Nat) (f off : Nat)
    (ps : List PartInfo) (e : Nat)
    (h : parsePartsGo buf (f + 1) off = .ok (ps, e)) :
    (¬ off + 12 ≤ buf.length ∧ ps = [] ∧ e = off)
    ∨ (off + 12 ≤ buf.length
        ∧ (asciiAt buf off 4 = magicENDdot ∨ asciiAt buf off 4 = magicENDS)
        ∧ ps = [] ∧ e = off)
    ∨ (off + 12 ≤ buf.length
        ∧ ¬(asciiAt buf off 4 = magicENDdot ∨ asciiAt buf off 4 = magicENDS)
        ∧ (asciiAt buf off 4 = magicPART ∨ asciiAt buf off 4 = magicEXEC)
        ∧ ∃ memaddr index baseaddr entryaddr data_size part_size crcClaim rest,
            readU32 buf (off + 32) = .ok memaddr
          ∧ readU32 buf (off + 36) = .ok index
          ∧ readU32 buf (off + 40) = .ok baseaddr
          ∧ readU32 buf (off + 44) = .ok entryaddr
          ∧ readU32 buf (off + 48) = .ok data_size
          ∧ readU32 buf (off + 52) = .ok part_size
          ∧ readU32 buf (off + 56 + data_size) = .ok crcClaim
          ∧ parsePartsGo buf f (off + 56 + data_size + 8) = .ok (rest, e)
          ∧ ps = { header := { magic := asciiAt buf off 4,
                               name := readCStringBytes buf (off + 4) 16,
                               memaddr, index, baseaddr, entryaddr,
                               data_size, part_size },
                   data := bytesAt buf (off + 56) data_size,
                   crcClaim,
                   crcCalc := crc32u (bytesAt buf off (56 + data_size)),
                   crcValid :=
                     decide (crcClaim
                       = crc32u (bytesAt buf off (56 + data_size))) } :: rest) := by
  simp only [parsePartsGo] at h
  by_cases hg : off + 12 ≤ buf.length
  · rw [if_pos hg] at h
    by_cases hend : asciiAt buf off 4 = magicENDdot ∨ asciiAt buf off 4 = magicENDS
    · rw [if_pos hend] at h
      injection h with h
      injection h with h1 h2
      exact Or.inr (Or.inl ⟨hg, hend, h1.symm, h2.symm⟩)
    · rw [if_neg hend] at h
      by_cases hpe : asciiAt buf off 4 = magicPART ∨ asciiAt buf off 4 = magicEXEC
      · rw [if_pos hpe] at h
        obtain ⟨memaddr, h32, h⟩ := matchE_ok _ _ _ h
        obtain ⟨index, h36, h⟩ := matchE_ok _ _ _ h
        obtain ⟨baseaddr, h40, h⟩ := matchE_ok _ _ _ h
        obtain ⟨entryaddr, h44, h⟩ := matchE_ok _ _ _ h
        obtain ⟨data_size, h48, h⟩ := matchE_ok _ _ _ h
        obtain ⟨part_size, h52, h⟩ := matchE_ok _ _ _ h
        obtain ⟨crcClaim, hcrc, h⟩ := matchE_ok _ _ _ h
        obtain ⟨rest, finalOff, hrec, h⟩ := matchR_ok _ _ _ h
        injection h with h
        injection h with h1 h2
        subst h2
        exact Or.inr (Or.inr ⟨hg, hend, hpe,
          memaddr, index, baseaddr, entryaddr, data_size, part_size,
          crcClaim, rest, h32, h36, h40, h44, h48, h52, hcrc, hrec, h1.symm⟩)
      · rw [if_neg hpe] at h
        cases h
  · rw [if_neg hg] at h
    injection h with h
    injection h with h1 h2
    exact Or.inl ⟨hg, h1.symm, h2.symm⟩

/-- Success inversion for the segment walk: every returned segment's
payload is the full `data_size`-byte window, and payload plus trailing
checksum lie inside the buffer. -/
theorem parsePartsGo_ok_parts :
    ∀ (fuel : Nat) (buf : List Nat) (off : Nat) (ps : List PartInfo) (e : Nat),
    parsePartsGo buf fuel off = .ok (ps, e) →
    ∀ q ∈ ps, q.data.length = q.header.data_size
      ∧ ∃ s, q.data = bytesAt buf s q.header.data_size
        ∧ s + q.header.data_size + 4 ≤ buf.length := by
  intro fuel
  induction fuel with
  | zero =>
    intro buf off ps e h q hq
    simp only [parsePartsGo] at h
    injection h with h
    injection h with h1 _
    rw [← h1] at hq
    cases hq
  | succ f ih =>
    intro buf off ps e h q hq
    rcases parsePartsGo_succ_ok buf f off ps e h with
      ⟨_, rfl, _⟩ | ⟨_, _, rfl, _⟩ |
      ⟨_, _, _, memaddr, index, baseaddr, entryaddr, data_size, part_size,
        crcClaim, rest, _, _, _, _, _, _, hcrc, hrec, rfl⟩
    · cases hq
    · cases hq
    · rcases List.mem_cons.1 hq with hqh | hqt
      · subst hqh
        have hbound := ((readU32_eq_ok _ _ _).1 hcrc).1
        refine ⟨?_, off + 56, rfl, ?_⟩
        · show (bytesAt buf (off + 56) data_size).length = data_size
          simp only [length_bytesAt]
          omega
        · show off + 56 + data_size + 4 ≤ buf.length
          omega
      · exact ih buf _ rest e hrec q hqt

/-- Success inversion for the whole decoder. -/
theorem parseFirmware_ok_inv (buf : List Nat) (img : FirmwareImage)
    (h : parseFirmware buf = .ok img) :
    ∃ hOff ps off sigStored,
      locateHeader buf = some hOff
      ∧ parsePartsGo buf (buf.length + 1) (hOff + 268) = .ok (ps, off)
      ∧ (asciiAt buf off 4 = magicENDdot ∨ asciiAt buf off 4 = magicENDS)
      ∧ readU32 buf (off + 4) = .ok sigStored
      ∧ img = { version := readCStringBytes buf (hOff + 4) 256,
                parts := ps,
                signatureValid :=
                  decide (sigStored = crc32u (bytesAt buf 0 off)) } := by
  unfold parseFirmware at h
  cases hloc : locateHeader buf with
  | none => rw [hloc] at h; cases h
  | some hOff =>
    simp only [hloc] at h
    cases hgo : parsePartsGo buf (buf.length + 1) (hOff + 268) with
    | error e => simp only [hgo] at h; cases h
    | ok pr =>
      obtain ⟨ps, off⟩ := pr
      simp only [hgo] at h
      by_cases hsig : asciiAt buf off 4 = magicENDdot
          ∨ asciiAt buf off 4 = magicENDS
      · rw [if_pos hsig] at h
        cases hst : readU32 buf (off + 4) with
        | error e => simp only [hst] at h; cases h
        | ok sigStored =>
          simp only [hst] at h
          injection h with h
          exact ⟨hOff, ps, off, sigStored, rfl, hgo, hsig, hst, h.symm⟩
      · rw [if_neg hsig] at h; cases h

/-- Error inversion for the segment walk: a range error always names an
offset whose 4-byte read leaves the buffer; an unknown-magic error
always carries exactly the 4 decoded magic bytes at some reachable
segment-start position, and that magic is none of the four accepted
ones; the walk itself never produces the other two error kinds. -/
theorem parsePartsGo_error_inv :
    ∀ (fuel : Nat) (buf : List Nat) (off : Nat) (e : ParseError),
    parsePartsGo buf fuel off = .error e →
      (∀ o, e = .truncated o → buf.length < o + 4)
      ∧ (∀ m, e = .unknownPartMagic m →
          ¬(m = magicENDdot ∨ m = magicENDS)
          ∧ ¬(m = magicPART ∨ m = magicEXEC)
          ∧ ∃ o, m = asciiAt buf o 4 ∧ o + 12 ≤ buf.length)
      ∧ e ≠ .headerNotFound ∧ e ≠ .badSignatureMagic := by
  intro fuel
  induction fuel with
  | zero => intro buf off e h; cases h
  | succ f ih =>
    intro buf off e h
    simp only [parsePartsGo] at h
    by_cases hg : off + 12 ≤ buf.length
    · rw [if_pos hg] at h
      by_cases hend : asciiAt buf off 4 = magicENDdot
          ∨ asciiAt buf off 4 = magicENDS
      · rw [if_pos hend] at h; cases h
      · rw [if_neg hend] at h
        by_cases hpe : asciiAt buf off 4 = magicPART
            ∨ asciiAt buf off 4 = magicEXEC
        · rw [if_pos hpe] at h
          cases h32 : readU32 buf (off + 32) with
          | error e1 =>
            simp only [h32] at h
            injection h with h
            subst h
            obtain ⟨hb, he⟩ := (readU32_eq_error _ _ _).1 h32
            subst he
            refine ⟨fun o ho => ?_, fun m hm => ?_, fun hc => ?_, fun hc => ?_⟩
            · injection ho with ho; omega
            · cases hm
            · cases hc
            · cases hc
          | ok memaddr =>
          simp only [h32] at h
          cases h36 : readU32 buf (off + 36) with
          | error e1 =>
            simp only [h36] at h
            injection h with h
            subst h
            obtain ⟨hb, he⟩ := (readU32_eq_error _ _ _).1 h36
            subst he
            refine ⟨fun o ho => ?_, fun m hm => ?_, fun hc => ?_, fun hc => ?_⟩
            · injection ho with ho; omega
            · cases hm
            · cases hc
            · cases hc
          | ok index =>
          simp only [h36] at h
          cases h40 : readU32 buf (off + 40) with
          | error e1 =>
            simp only [h40] at h
            injection h with h
            subst h
            obtain ⟨hb, he⟩ := (readU32_eq_error _ _ _).1 h40
            subst he
            refine ⟨fun o ho => ?_, fun m hm => ?_, fun hc => ?_, fun hc => ?_⟩
            · injection ho with ho; omega
            · cases hm
            · cases hc
            · cases hc
          | ok baseaddr =>
          simp only [h40] at h
          cases h44 : readU32 buf (off + 44) with
          | error e1 =>
            simp only [h44] at h
            injection h with h
            subst h
            obtain ⟨hb, he⟩ := (readU32_eq_error _ _ _).1 h44
            subst he
            refine ⟨fun o ho => ?_, fun m hm => ?_, fun hc => ?_, fun hc => ?_⟩
            · injection ho with ho; omega
            · cases hm
            · cases hc
            · cases hc
          | ok entryaddr =>
          simp only [h44] at h
          cases h48 : readU32 buf (off + 48) with
          | error e1 =>
            simp only [h48] at h
            injection h with h
            subst h
            obtain ⟨hb, he⟩ := (readU32_eq_error _ _ _).1 h48
            subst he
            refine ⟨fun o ho => ?_, fun m hm => ?_, fun hc => ?_, fun hc => ?_⟩
            · injection ho with ho; omega
            · cases hm
            · cases hc
            · cases hc
          | ok data_size =>
          simp only [h48] at h
          cases h52 : readU32 buf (off + 52) with
          | error e1 =>
            simp only [h52] at h
            injection h with h
            subst h
            obtain ⟨hb, he⟩ := (readU32_eq_error _ _ _).1 h52
            subst he
            refine ⟨fun o ho => ?_, fun m hm => ?_, fun hc => ?_, fun hc => ?_⟩
            · injection ho with ho; omega
            · cases hm
            · cases hc
            · cases hc
          | ok part_size =>
          simp only [h52] at h
          cases hcrc : readU32 buf (off + 56 + data_size) with
          | error e1 =>
            simp only [hcrc] at h
            injection h with h
            subst h
            obtain ⟨hb, he⟩ := (readU32_eq_error _ _ _).1 hcrc
            subst he
            refine ⟨fun o ho => ?_, fun m hm => ?_, fun hc => ?_, fun hc => ?_⟩
            · injection ho with ho; omega
            · cases hm
            · cases hc
            · cases hc
          | ok crcClaim =>
          simp only [hcrc] at h
          cases hrec : parsePartsGo buf f (off + 56 + data_size + 8) with
          | error e1 =>
            simp only [hrec] at h
            injection h with h
            subst h
            exact ih buf _ _ hrec
          | ok pr =>
            obtain ⟨rest, finalOff⟩ := pr
            simp only [hrec] at h
            cases h
        · rw [if_neg hpe] at h
          injection h with h
          subst h
          refine ⟨fun o ho => ?_, fun m hm => ?_, fun hc => ?_, fun hc => ?_⟩
          · cases ho
          · injection hm with hm
            subst hm
            exact ⟨hend, hpe, off, rfl, hg⟩
          · cases hc
          · cases hc
    · rw [if_neg hg] at h; cases h

/-- C10: for every buffer on which decoding succeeds, each returned
segment's payload has length exactly its header's `data_size`, is the
byte window the parser cut from the input, and payload plus trailing
4-byte checksum claim lie entirely inside the buffer. -/
theorem C10_decoded_size_invariant (buf : List Nat) (img : FirmwareImage)
    (h : parseFirmware buf = .ok img) :
    ∀ q ∈ img.parts, q.data.length = q.header.data_size
      ∧ ∃ s, q.data = bytesAt buf s q.header.data_size
        ∧ s + q.header.data_size + 4 ≤ buf.length := by
  obtain ⟨hOff, ps, off, sigStored, _, hgo, _, _, himg⟩ :=
    parseFirmware_ok_inv buf img h
  subst himg
  exact parsePartsGo_ok_parts _ buf _ ps off hgo

/-- C10 witness: the demonstration firmware, hypothesis discharged via
the round-trip equality. -/
theorem C10_decoded_size_invariant_witness :
    parseFirmware demoFirmware =
      .ok { version := encodedVersion demoVersion,
            parts := [demoPart].map encodedPartInfo,
            signatureValid := true }
    ∧ ∀ q ∈ [demoPart].map encodedPartInfo,
        q.data.length = q.header.data_size
        ∧ ∃ s, q.data = bytesAt demoFirmware s q.header.data_size
          ∧ s + q.header.data_size + 4 ≤ demoFirmware.length := by
  have hp : parseFirmware demoFirmware =
      .ok { version := encodedVersion demoVersion,
            parts := [demoPart].map encodedPartInfo,
            signatureValid := true } :=
    parse_build_eq [demoPart] demoVersion (by decide)
  exact ⟨hp, C10_decoded_size_invariant demoFirmware _ hp⟩

/-- Error inversion for the whole decoder: the three ways a decode can
fail. -/
theorem parseFirmware_error_inv (buf : List Nat) (e : ParseError)
    (h : parseFirmware buf = .error e) :
    (locateHeader buf = none ∧ e = .headerNotFound)
    ∨ (∃ hOff, locateHeader buf = some hOff
        ∧ parsePartsGo buf (buf.length + 1) (hOff + 268) = .error e)
    ∨ (∃ hOff ps off, locateHeader buf = some hOff
        ∧ parsePartsGo buf (buf.length + 1) (hOff + 268) = .ok (ps, off)
        ∧ ((¬(asciiAt buf off 4 = magicENDdot
              ∨ asciiAt buf off 4 = magicENDS)
            ∧ e = .badSignatureMagic)
           ∨ ((asciiAt buf off 4 = magicENDdot
              ∨ asciiAt buf off 4 = magicENDS)
            ∧ readU32 buf (off + 4) = .error e))) := by
  unfold parseFirmware at h
  cases hloc : locateHeader buf with
  | none =>
    rw [hloc] at h
    injection h with h
    exact Or.inl ⟨rfl, h.symm⟩
  | some hOff =>
    simp only [hloc] at h
    cases hgo : parsePartsGo buf (buf.length + 1) (hOff + 268) with
    | error e1 =>
      simp only [hgo] at h
      injection h with h
      subst h
      exact Or.inr (Or.inl ⟨hOff, rfl, hgo⟩)
    | ok pr =>
      obtain ⟨ps, off⟩ := pr
      simp only [hgo] at h
      by_cases hsig : asciiAt buf off 4 = magicENDdot
          ∨ asciiAt buf off 4 = magicENDS
      · rw [if_pos hsig] at h
        cases hst : readU32 buf (off + 4) with
        | error e1 =>
          simp only [hst] at h
          injection h with h
          subst h
          exact Or.inr (Or.inr ⟨hOff, ps, off, rfl, hgo,
            Or.inr ⟨hsig, hst⟩⟩)
        | ok sigStored =>
          simp only [hst] at h
          cases h
      · rw [if_neg hsig] at h
        injection h with h
        exact Or.inr (Or.inr ⟨hOff, ps, off, rfl, hgo,
          Or.inl ⟨hsig, h.symm⟩⟩)

/-- C7 (amended): whenever decoding fails with a range (`truncated`)
error, the error names exactly an offset whose 4-byte big-endian read
leaves the buffer — segment-header field reads, the trailing checksum
read, and the signature checksum read all report this way — and a
successful decode never returns a short segment (every payload has its
full declared size).  (A buffer cut at the signature magic itself fails
with `badSignatureMagic` instead: string reads clamp; see the
counterexample.) -/
theorem C7_truncation (buf : List Nat) :
    (∀ o, parseFirmware buf = .error (.truncated o) → buf.length < o + 4)
    ∧ (∀ img, parseFirmware buf = .ok img →
        ∀ q ∈ img.parts, q.data.length = q.header.data_size) := by
  constructor
  · intro o h
    rcases parseFirmware_error_inv buf _ h with
      ⟨_, he⟩ | ⟨hOff, _, hgo⟩ | ⟨hOff, ps, off, _, _, hc⟩
    · cases he
    · exact (parsePartsGo_error_inv _ buf _ _ hgo).1 o rfl
    · rcases hc with ⟨_, he⟩ | ⟨_, hrd⟩
      · cases he
      · obtain ⟨hb, he⟩ := (readU32_eq_error _ _ _).1 hrd
        injection he with he
        omega
  · intro img h q hq
    exact ((C10_decoded_size_invariant buf img h) q hq).1

/-- Truncated demonstration: a container cut 90 bytes into a segment
whose declared payload size is 100; the trailing-checksum read at
offset 424 leaves the 334-byte buffer. -/
def demoTrunc : List Nat :=
  headerFull [] ++ (magicPART ++ (zeros 44 ++ (u32be 100
    ++ (u32be 0 ++ zeros 10))))

/-- C7 witness: the cut-mid-payload buffer fails with the range error
naming offset 424, and the theorem confirms that offset's read leaves
the buffer. -/
theorem C7_truncation_witness :
    parseFirmware demoTrunc = .error (.truncated 424)
    ∧ demoTrunc.length < 424 + 4 :=
  ⟨by decide, (C7_truncation demoTrunc).1 424 (by decide)⟩

/-- C7 counterexample: a buffer cut right before the signature (a bare
valid 268-byte header).  The required 4-byte signature-magic read
extends past the end of the buffer, yet decoding fails with
`badSignatureMagic`, not a `truncated` error — Node string reads clamp
instead of throwing. -/
theorem C7_counterexample :
    parseFirmware (headerFull []) = .error .badSignatureMagic
    ∧ (headerFull []).length < 268 + 4 :=
  ⟨by decide, by decide⟩

/-- C8 (amended): an unrecognised 4-byte magic at a reachable
segment-start position is a hard decode failure carrying exactly the
decoded magic bytes (the offset appears only in optional debug logging,
not in the error); conversely every unknown-magic error names the
decoded magic of some in-bounds segment-start position, never one of
the four accepted magics. -/
theorem C8_unknown_magic (buf : List Nat) :
    (∀ off f, off + 12 ≤ buf.length →
      ¬(asciiAt buf off 4 = magicENDdot ∨ asciiAt buf off 4 = magicENDS) →
      ¬(asciiAt buf off 4 = magicPART ∨ asciiAt buf off 4 = magicEXEC) →
      parsePartsGo buf (f + 1) off =
        .error (.unknownPartMagic (asciiAt buf off 4)))
    ∧ (∀ m, parseFirmware buf = .error (.unknownPartMagic m) →
        ¬(m = magicENDdot ∨ m = magicENDS)
        ∧ ¬(m = magicPART ∨ m = magicEXEC)
        ∧ ∃ o, m = asciiAt buf o 4 ∧ o + 12 ≤ buf.length) := by
  constructor
  · intro off f hg hend hpe
    simp only [parsePartsGo]
    rw [if_pos hg, if_neg hend, if_neg hpe]
  · intro m h
    rcases parseFirmware_error_inv buf _ h with
      ⟨_, he⟩ | ⟨hOff, _, hgo⟩ | ⟨hOff, ps, off, _, _, hc⟩
    · cases he
    · exact (parsePartsGo_error_inv _ buf _ _ hgo).2.1 m rfl
    · rcases hc with ⟨_, he⟩ | ⟨_, hrd⟩
      · cases he
      · obtain ⟨_, he⟩ := (readU32_eq_error _ _ _).1 hrd
        cases he

/-- Corrupted-magic demonstration: the single segment's magic is
"XXXX". -/
def demoBadMagic : List Nat :=
  headerFull [] ++ ([88, 88, 88, 88] ++ zeros 60)

/-- C8 witness: decoding the corrupted container fails with the
unknown-magic error carrying exactly the decoded magic "XXXX". -/
theorem C8_unknown_magic_witness :
    parseFirmware demoBadMagic = .error (.unknownPartMagic [88, 88, 88, 88])
    ∧ parsePartsGo demoBadMagic (demoBadMagic.length - 268)  268 =
        .error (.unknownPartMagic (asciiAt demoBadMagic 268 4)) := by
  constructor
  · decide
  · exact (C8_unknown_magic demoBadMagic).1 268 (demoBadMagic.length - 269)
      (by decide) (by decide) (by decide)

/-- C8 counterexample: the same unknown magic at two different offsets
(268 and 332) produces literally identical errors — the error value
carries no offset, contradicting the claim that the error names both
the magic and its offset. -/
def demoBadMagic2 : List Nat :=
  headerFull [] ++ (magicPART ++ (zeros 52 ++ (u32be 0 ++ (zeros 4
    ++ ([88, 88, 88, 88] ++ zeros 60)))))

theorem C8_counterexample :
    parseFirmware demoBadMagic = .error (.unknownPartMagic [88, 88, 88, 88])
    ∧ parseFirmware demoBadMagic2 = .error (.unknownPartMagic [88, 88, 88, 88])
    ∧ parseFirmware demoBadMagic = parseFirmware demoBadMagic2
    ∧ asciiAt demoBadMagic 268 4 = [88, 88, 88, 88]
    ∧ asciiAt demoBadMagic2 332 4 = [88, 88, 88, 88]
    ∧ asciiAt demoBadMagic2 268 4 = magicPART :=
  ⟨by decide, by decide, by decide, by decide, by decide, by decide⟩

/-- C3 (amended): `signatureValid` is computed from a single covered
range: the stored checksum at the signature offset is compared with the
CRC-32 over `[0, signatureOffset)` only — there is no second accepted
range and no OR. -/
theorem C3_signature_single_range (buf : List Nat) (img : FirmwareImage)
    (h : parseFirmware buf = .ok img) :
    ∃ hOff ps off sigStored,
      locateHeader buf = some hOff
      ∧ parsePartsGo buf (buf.length + 1) (hOff + 268) = .ok (ps, off)
      ∧ readU32 buf (off + 4) = .ok sigStored
      ∧ img.signatureValid
          = decide (sigStored = crc32u (bytesAt buf 0 off)) := by
  obtain ⟨hOff, ps, off, sigStored, h1, h2, _, h4, h5⟩ :=
    parseFirmware_ok_inv buf img h
  exact ⟨hOff, ps, off, sigStored, h1, h2, h4, by rw [h5]⟩

/-- C3 witness: the demonstration firmware, hypothesis discharged via
the round-trip equality. -/
theorem C3_signature_single_range_witness :
    parseFirmware demoFirmware =
      .ok { version := encodedVersion demoVersion,
            parts := [demoPart].map encodedPartInfo,
            signatureValid := true }
    ∧ ∃ hOff ps off sigStored,
        locateHeader demoFirmware = some hOff
        ∧ parsePartsGo demoFirmware (demoFirmware.length + 1) (hOff + 268)
            = .ok (ps, off)
        ∧ readU32 demoFirmware (off + 4) = .ok sigStored
        ∧ (true : Bool)
            = decide (sigStored = crc32u (bytesAt demoFirmware 0 off)) := by
  have hp : parseFirmware demoFirmware =
      .ok { version := encodedVersion demoVersion,
            parts := [demoPart].map encodedPartInfo,
            signatureValid := true } :=
    parse_build_eq [demoPart] demoVersion (by decide)
  exact ⟨hp, C3_signature_single_range demoFirmware _ hp⟩

/-- Container whose stored signature checksum was solved (over GF(2))
to equal the CRC-32 of the second covered range `[0, s + 12)` claimed
by the spec, while differing from the CRC-32 of `[0, s)`. -/
def demo3 : List Nat :=
  headerFull [] ++ (magicENDdot ++ (u32be 0x7525e2aa ++ zeros 4))

/-- C3 counterexample: the stored checksum of `demo3` equals the CRC-32
over `[0, s + 12)` (the second covered range the claim says is
accepted), yet decoding reports `signatureValid = false` — only the
`[0, s)` range is ever accepted. -/
theorem C3_counterexample :
    (parseFirmware demo3).map (·.signatureValid) = .ok false
    ∧ readU32d demo3 272 = crc32u (bytesAt demo3 0 280)
    ∧ readU32d demo3 272 ≠ crc32u (bytesAt demo3 0 268) :=
  ⟨by decide, by decide, by decide⟩

/-! Machinery for the Header Locator claim: first-match
characterisations of the two scan loops. -/

theorem bytesAt_getElem (buf : List Nat) (o n k : Nat) (hk : k < n)
    (pat : List Nat) (h : bytesAt buf o n = pat) :
    buf[o + k]? = pat[k]? := by
  rw [← h]
  unfold bytesAt
  rw [List.getElem?_take_of_lt hk, List.getElem?_drop]

theorem bytesAt_pat_bound (buf pat : List Nat) (j : Nat)
    (hp : 0 < pat.length) (h : bytesAt buf j pat.length = pat) :
    j + pat.length ≤ buf.length := by
  have hl := congrArg List.length h
  rw [length_bytesAt] at hl
  omega

theorem magicPART_no_overlap (buf : List Nat) (q j : Nat)
    (hq : bytesAt buf q 4 = magicPART) (hj : bytesAt buf j 4 = magicPART)
    (h1 : q < j) (h2 : j < q + 4) : False := by
  have hcase : j = q + 1 ∨ j = q + 2 ∨ j = q + 3 := by omega
  rcases hcase with rfl | rfl | rfl
  · have e1 := bytesAt_getElem buf q 4 1 (by omega) _ hq
    have e2 := bytesAt_getElem buf (q + 1) 4 0 (by omega) _ hj
    rw [Nat.add_zero] at e2
    exact absurd (e1.symm.trans e2) (by decide)
  · have e1 := bytesAt_getElem buf q 4 2 (by omega) _ hq
    have e2 := bytesAt_getElem buf (q + 2) 4 0 (by omega) _ hj
    rw [Nat.add_zero] at e2
    exact absurd (e1.symm.trans e2) (by decide)
  · have e1 := bytesAt_getElem buf q 4 3 (by omega) _ hq
    have e2 := bytesAt_getElem buf (q + 3) 4 0 (by omega) _ hj
    rw [Nat.add_zero] at e2
    exact absurd (e1.symm.trans e2) (by decide)

theorem range_find?_some :
    ∀ (n : Nat) (P : Nat → Bool) (i : Nat),
    (List.range n).find? P = some i →
    i < n ∧ P i = true ∧ ∀ j < i, P j = false := by
  intro n
  induction n with
  | zero => intro P i h; rw [List.range_zero] at h; cases h
  | succ n ih =>
    intro P i h
    rw [List.range_succ_eq_map, List.find?_cons] at h
    cases hP0 : P 0 with
    | true =>
      rw [hP0] at h
      injection h with h
      subst h
      exact ⟨by omega, hP0, fun j hj => by omega⟩
    | false =>
      rw [hP0] at h
      rw [List.find?_map] at h
      cases hf : (List.range n).find? (P ∘ Nat.succ) with
      | none => rw [hf] at h; cases h
      | some i' =>
        rw [hf] at h
        injection h with h
        subst h
        obtain ⟨hlt, hPi, hmin⟩ := ih (P ∘ Nat.succ) i' hf
        refine ⟨by omega, hPi, fun j hj => ?_⟩
        cases j with
        | zero => exact hP0
        | succ k => exact hmin k (by omega)

theorem range_find?_none :
    ∀ (n : Nat) (P : Nat → Bool),
    (List.range n).find? P = none → ∀ j < n, P j = false := by
  intro n
  induction n with
  | zero => intro P h j hj; omega
  | succ n ih =>
    intro P h j hj
    rw [List.range_succ_eq_map, List.find?_cons] at h
    cases hP0 : P 0 with
    | true => rw [hP0] at h; cases h
    | false =>
      rw [hP0] at h
      rw [List.find?_map] at h
      cases hf : (List.range n).find? (P ∘ Nat.succ) with
      | some i' => rw [hf] at h; cases h
      | none =>
        cases j with
        | zero => exact hP0
        | succ k => exact ih (P ∘ Nat.succ) hf k (by omega)

theorem indexOfFrom_some_of (buf pat : List Nat) (_hp : 0 < pat.length) :
    ∀ (fuel start i : Nat),
    indexOfFrom buf pat fuel start = some i →
    start ≤ i ∧ bytesAt buf i pat.length = pat
      ∧ ∀ j, start ≤ j → j < i → bytesAt buf j pat.length ≠ pat := by
  intro fuel
  induction fuel with
  | zero => intro start i h; cases h
  | succ f ih =>
    intro start i h
    simp only [indexOfFrom] at h
    by_cases hb : start + pat.length ≤ buf.length
    · rw [if_pos hb] at h
      by_cases hm : bytesAt buf start pat.length = pat
      · rw [if_pos hm] at h
        injection h with h
        subst h
        exact ⟨Nat.le_refl _, hm, fun j h1 h2 => by omega⟩
      · rw [if_neg hm] at h
        obtain ⟨h1, h2, h3⟩ := ih (start + 1) i h
        refine ⟨by omega, h2, fun j hj1 hj2 => ?_⟩
        rcases Nat.eq_or_lt_of_le hj1 with rfl | hlt
        · exact hm
        · exact h3 j hlt hj2
    · rw [if_neg hb] at h
      cases h

theorem indexOfFrom_none_of (buf pat : List Nat) (hp : 0 < pat.length) :
    ∀ (fuel start : Nat), buf.length + 1 ≤ start + fuel →
    indexOfFrom buf pat fuel start = none →
    ∀ j, start ≤ j → bytesAt buf j pat.length ≠ pat := by
  intro fuel
  induction fuel with
  | zero =>
    intro start hfuel _ j hj hpat
    have := bytesAt_pat_bound buf pat j hp hpat
    omega
  | succ f ih =>
    intro start hfuel h j hj hpat
    simp only [indexOfFrom] at h
    by_cases hb : start + pat.length ≤ buf.length
    · rw [if_pos hb] at h
      by_cases hm : bytesAt buf start pat.length = pat
      · rw [if_pos hm] at h; cases h
      · rw [if_neg hm] at h
        rcases Nat.eq_or_lt_of_le hj with rfl | hlt
        · exact hm hpat
        · exact ih (start + 1) (by omega) h j hlt hpat
    · have := bytesAt_pat_bound buf pat j hp hpat
      omega

/-- Candidate predicate of phase 1, following the spec: a header-magic
occurrence at `p` whose self-check (window in bounds, stored big-endian
CRC at `p + 260` equal to CRC-32 over `[p, p + 260)`) passes. -/
def openPredB (buf : List Nat) (p : Nat) : Bool :=
  decide (bytesAt buf p 4 = magicOPEN) && headerCheck buf p

/-- Candidate predicate of phase 2, following the spec: a segment-magic
occurrence at `q` with `q - 268 ≥ 0` passing the same self-check at
`q - 268`. -/
def partPredB (buf : List Nat) (q : Nat) : Bool :=
  decide (bytesAt buf q 4 = magicPART)
    && (decide (268 ≤ q) && headerCheck buf (q - 268))

theorem openPredB_true (buf : List Nat) (p : Nat) :
    openPredB buf p = true ↔
      bytesAt buf p 4 = magicOPEN ∧ headerCheck buf p = true := by
  unfold openPredB
  rw [Bool.and_eq_true, decide_eq_true_eq]

theorem openPredB_bound (buf : List Nat) (j : Nat)
    (h : openPredB buf j = true) : j + 4 ≤ buf.length :=
  bytesAt_pat_bound buf magicOPEN j (by decide) ((openPredB_true buf j).1 h).1

theorem partPredB_true (buf : List Nat) (q : Nat) :
    partPredB buf q = true ↔
      bytesAt buf q 4 = magicPART
        ∧ 268 ≤ q ∧ headerCheck buf (q - 268) = true := by
  unfold partPredB
  rw [Bool.and_eq_true, Bool.and_eq_true, decide_eq_true_eq,
    decide_eq_true_eq]

theorem partPredB_bound (buf : List Nat) (j : Nat)
    (h : partPredB buf j = true) : j + 4 ≤ buf.length :=
  bytesAt_pat_bound buf magicPART j (by decide) ((partPredB_true buf j).1 h).1

theorem openScan_some_of (buf : List Nat) :
    ∀ (fuel start p : Nat), buf.length + 1 ≤ start + fuel →
    openScan buf fuel start = some p →
    start ≤ p ∧ openPredB buf p = true
      ∧ ∀ j, start ≤ j → j < p → openPredB buf j = false := by
  intro fuel
  induction fuel with
  | zero => intro start p _ h; cases h
  | succ f ih =>
    intro start p hfuel h
    simp only [openScan] at h
    cases hio : indexOfFrom buf magicOPEN (buf.length + 1) start with
    | none => simp only [hio] at h; cases h
    | some pos =>
      simp only [hio] at h
      obtain ⟨hsp, hm, hmin⟩ :=
        indexOfFrom_some_of buf magicOPEN (by decide) _ start pos hio
      have hm4 : bytesAt buf pos 4 = magicOPEN := hm
      have hmin4 : ∀ j, start ≤ j → j < pos → bytesAt buf j 4 ≠ magicOPEN :=
        hmin
      by_cases hc : headerCheck buf pos = true
      · rw [if_pos hc] at h
        injection h with h
        subst h
        refine ⟨hsp, (openPredB_true buf pos).2 ⟨hm4, hc⟩,
          fun j h1 h2 => ?_⟩
        unfold openPredB
        rw [decide_eq_false (hmin4 j h1 h2), Bool.false_and]
      · rw [if_neg hc] at h
        obtain ⟨h1, h2, h3⟩ := ih (pos + 1) p (by omega) h
        refine ⟨by omega, h2, fun j hj1 hj2 => ?_⟩
        by_cases hjp : j < pos
        · unfold openPredB
          rw [decide_eq_false (hmin4 j hj1 hjp), Bool.false_and]
        · by_cases hje : j = pos
          · subst hje
            unfold openPredB
            rw [Bool.eq_false_iff.2 hc, Bool.and_false]
          · exact h3 j (by omega) hj2

theorem openScan_none_of (buf : List Nat) :
    ∀ (fuel start : Nat), buf.length + 1 ≤ start + fuel →
    openScan buf fuel start = none →
    ∀ j, start ≤ j → openPredB buf j = false := by
  intro fuel
  induction fuel with
  | zero =>
    intro start hfuel _ j hj
    cases hPj : openPredB buf j with
    | false => rfl
    | true =>
      have := openPredB_bound buf j hPj
      omega
  | succ f ih =>
    intro start hfuel h j hj
    simp only [openScan] at h
    cases hio : indexOfFrom buf magicOPEN (buf.length + 1) start with
    | none =>
      have hnm : bytesAt buf j 4 ≠ magicOPEN :=
        indexOfFrom_none_of buf magicOPEN (by decide)
          (buf.length + 1) start (by omega) hio j hj
      unfold openPredB
      rw [decide_eq_false hnm, Bool.false_and]
    | some pos =>
      simp only [hio] at h
      obtain ⟨hsp, hm, hmin⟩ :=
        indexOfFrom_some_of buf magicOPEN (by decide) _ start pos hio
      have hmin4 : ∀ j, start ≤ j → j < pos → bytesAt buf j 4 ≠ magicOPEN :=
        hmin
      by_cases hc : headerCheck buf pos = true
      · rw [if_pos hc] at h; cases h
      · rw [if_neg hc] at h
        by_cases hjp : j < pos
        · unfold openPredB
          rw [decide_eq_false (hmin4 j hj hjp), Bool.false_and]
        · by_cases hje : j = pos
          · subst hje
            unfold openPredB
            rw [Bool.eq_false_iff.2 hc, Bool.and_false]
          · exact ih (pos + 1) (by omega) h j (by omega)

theorem partScan_some_of (buf : List Nat) :
    ∀ (fuel start r : Nat), buf.length + 1 ≤ start + fuel →
    partScan buf fuel start = some r →
    ∃ q, start ≤ q ∧ partPredB buf q = true
      ∧ (∀ j, start ≤ j → j < q → partPredB buf j = false)
      ∧ r = q - 268 := by
  intro fuel
  induction fuel with
  | zero => intro start r _ h; cases h
  | succ f ih =>
    intro start r hfuel h
    simp only [partScan] at h
    cases hio : indexOfFrom buf magicPART (buf.length + 1) start with
    | none => simp only [hio] at h; cases h
    | some pos =>
      simp only [hio] at h
      obtain ⟨hsp, hm, hmin⟩ :=
        indexOfFrom_some_of buf magicPART (by decide) _ start pos hio
      have hm4 : bytesAt buf pos 4 = magicPART := hm
      have hmin4 : ∀ j, start ≤ j → j < pos → bytesAt buf j 4 ≠ magicPART :=
        hmin
      by_cases hc : 268 ≤ pos ∧ headerCheck buf (pos - 268) = true
      · rw [if_pos hc] at h
        injection h with h
        refine ⟨pos, hsp, (partPredB_true buf pos).2 ⟨hm4, hc.1, hc.2⟩,
          fun j h1 h2 => ?_, h.symm⟩
        unfold partPredB
        rw [decide_eq_false (hmin4 j h1 h2), Bool.false_and]
      · rw [if_neg hc] at h
        obtain ⟨q, h1, h2, h3, h4⟩ := ih (pos + 4) r (by omega) h
        refine ⟨q, by omega, h2, fun j hj1 hj2 => ?_, h4⟩
        by_cases hjp : j < pos
        · unfold partPredB
          rw [decide_eq_false (hmin4 j hj1 hjp), Bool.false_and]
        · by_cases hje : j = pos
          · subst hje
            cases hPj : partPredB buf j with
            | false => rfl
            | true =>
              obtain ⟨_, hq1, hq2⟩ := (partPredB_true buf j).1 hPj
              exact absurd ⟨hq1, hq2⟩ hc
          · by_cases hj4 : j < pos + 4
            · cases hPj : partPredB buf j with
              | false => rfl
              | true =>
                have hjm := ((partPredB_true buf j).1 hPj).1
                exact absurd (magicPART_no_overlap buf pos j hm4 hjm
                  (by omega) (by omega)) (fun hf => hf)
            · exact h3 j (by omega) hj2

theorem partScan_none_of (buf : List Nat) :
    ∀ (fuel start : Nat), buf.length + 1 ≤ start + fuel →
    partScan buf fuel start = none →
    ∀ j, start ≤ j → partPredB buf j = false := by
  intro fuel
  induction fuel with
  | zero =>
    intro start hfuel _ j hj
    cases hPj : partPredB buf j with
    | false => rfl
    | true =>
      have := partPredB_bound buf j hPj
      omega
  | succ f ih =>
    intro start hfuel h j hj
    simp only [partScan] at h
    cases hio : indexOfFrom buf magicPART (buf.length + 1) start with
    | none =>
      have hnm : bytesAt buf j 4 ≠ magicPART :=
        indexOfFrom_none_of buf magicPART (by decide)
          (buf.length + 1) start (by omega) hio j hj
      unfold partPredB
      rw [decide_eq_false hnm, Bool.false_and]
    | some pos =>
      simp only [hio] at h
      obtain ⟨hsp, hm, hmin⟩ :=
        indexOfFrom_some_of buf magicPART (by decide) _ start pos hio
      have hm4 : bytesAt buf pos 4 = magicPART := hm
      have hmin4 : ∀ j, start ≤ j → j < pos → bytesAt buf j 4 ≠ magicPART :=
        hmin
      by_cases hc : 268 ≤ pos ∧ headerCheck buf (pos - 268) = true
      · rw [if_pos hc] at h; cases h
      · rw [if_neg hc] at h
        by_cases hjp : j < pos
        · unfold partPredB
          rw [decide_eq_false (hmin4 j hj hjp), Bool.false_and]
        · by_cases hje : j = pos
          · subst hje
            cases hPj : partPredB buf j with
            | false => rfl
            | true =>
              obtain ⟨_, hq1, hq2⟩ := (partPredB_true buf j).1 hPj
              exact absurd ⟨hq1, hq2⟩ hc
          · by_cases hj4 : j < pos + 4
            · cases hPj : partPredB buf j with
              | false => rfl
              | true =>
                have hjm := ((partPredB_true buf j).1 hPj).1
                exact absurd (magicPART_no_overlap buf pos j hm4 hjm
                  (by omega) (by omega)) (fun hf => hf)
            · exact ih (pos + 4) (by omega) h j (by omega)

theorem openScan_eq_find (buf : List Nat) :
    openScan buf (buf.length + 1) 0 =
      (List.range (buf.length + 1)).find? (openPredB buf) := by
  cases hf : (List.range (buf.length + 1)).find? (openPredB buf) with
  | some i =>
    obtain ⟨hin, hPi, hmin⟩ := range_find?_some _ _ _ hf
    cases hs : openScan buf (buf.length + 1) 0 with
    | none =>
      have := openScan_none_of buf (buf.length + 1) 0 (by omega) hs i
        (by omega)
      rw [hPi] at this
      cases this
    | some p =>
      obtain ⟨_, hPp, hmin'⟩ :=
        openScan_some_of buf (buf.length + 1) 0 p (by omega) hs
      have hip : i = p := by
        rcases Nat.lt_trichotomy i p with hlt | heq | hgt
        · have := hmin' i (by omega) hlt
          rw [hPi] at this; cases this
        · exact heq
        · have := hmin p hgt
          rw [hPp] at this; cases this
      rw [hip]
  | none =>
    cases hs : openScan buf (buf.length + 1) 0 with
    | none => rfl
    | some p =>
      obtain ⟨_, hPp, _⟩ :=
        openScan_some_of buf (buf.length + 1) 0 p (by omega) hs
      have hlt : p < buf.length + 1 := by
        have := openPredB_bound buf p hPp
        omega
      have := range_find?_none _ _ hf p hlt
      rw [hPp] at this
      cases this

theorem partScan_eq_find (buf : List Nat) :
    partScan buf (buf.length + 1) 0 =
      ((List.range (buf.length + 1)).find? (partPredB buf)).map (· - 268) := by
  cases hf : (List.range (buf.length + 1)).find? (partPredB buf) with
  | some q =>
    obtain ⟨hin, hPq, hmin⟩ := range_find?_some _ _ _ hf
    cases hs : partScan buf (buf.length + 1) 0 with
    | none =>
      have := partScan_none_of buf (buf.length + 1) 0 (by omega) hs q
        (by omega)
      rw [hPq] at this
      cases this
    | some r =>
      obtain ⟨q', _, hPq', hmin', hr⟩ :=
        partScan_some_of buf (buf.length + 1) 0 r (by omega) hs
      have hqq : q = q' := by
        rcases Nat.lt_trichotomy q q' with hlt | heq | hgt
        · have := hmin' q (by omega) hlt
          rw [hPq] at this; cases this
        · exact heq
        · have := hmin q' hgt
          rw [hPq'] at this; cases this
      rw [hr, hqq]
      rfl
  | none =>
    cases hs : partScan buf (buf.length + 1) 0 with
    | none => rfl
    | some r =>
      obtain ⟨q', _, hPq', _, _⟩ :=
        partScan_some_of buf (buf.length + 1) 0 r (by omega) hs
      have hlt : q' < buf.length + 1 := by
        have := partPredB_bound buf q' hPq'
        omega
      have := range_find?_none _ _ hf q' hlt
      rw [hPq'] at this
      cases this

/-- Specification form of the Header Locator, written from the claim:
return the smallest offset at which the header magic occurs and the
self-check passes; failing that, the first segment-magic occurrence `q`
with `q - 268 ≥ 0` passing the same self-check, shifted back by 268;
failing that, nothing. -/
def locateHeaderSpec (buf : List Nat) : Option Nat :=
  match (List.range (buf.length + 1)).find? (openPredB buf) with
  | some p => some p
  | none => ((List.range (buf.length + 1)).find? (partPredB buf)).map (· - 268)

/-- C2: the Header Locator implements first-match-wins exactly as the
claim states, and when neither phase finds a self-consistent header the
decode fails with the header-not-found error. -/
theorem C2_header_locator (buf : List Nat) :
    locateHeader buf = locateHeaderSpec buf
    ∧ (locateHeader buf = none →
        parseFirmware buf = .error .headerNotFound) := by
  constructor
  · unfold locateHeader locateHeaderSpec
    rw [openScan_eq_find buf]
    cases hf : (List.range (buf.length + 1)).find? (openPredB buf) with
    | some p => rfl
    | none => exact partScan_eq_find buf
  · intro h
    simp only [parseFirmware, h]

/-- C2 witness: the empty buffer has no header; both sides agree and
decoding fails with the header-not-found error. -/
theorem C2_header_locator_witness :
    locateHeader [] = locateHeaderSpec []
    ∧ parseFirmware [] = .error .headerNotFound :=
  ⟨(C2_header_locator []).1, (C2_header_locator []).2 (by decide)⟩

/-! Machinery for the prefix-robustness and trailing-bytes claims. -/

theorem headerCheck_true (buf : List Nat) (p : Nat) :
    headerCheck buf p = true ↔
      p + 268 ≤ buf.length
        ∧ readU32d buf (p + 260) = crc32u (bytesAt buf p 260) := by
  unfold headerCheck
  rw [Bool.and_eq_true, decide_eq_true_eq, decide_eq_true_eq]

theorem parsePartsGo_big_off (buf : List Nat) (g off : Nat)
    (h : buf.length < off + 12) :
    parsePartsGo buf g off = .ok ([], off) := by
  cases g with
  | zero => rfl
  | succ g =>
    simp only [parsePartsGo]
    rw [if_neg (by omega)]

/-- Fuel irrelevance: any two sufficient fuels give the same walk
result (the walk consumes at least 64 bytes per step, so
`buf.length + 1 - off` steps always suffice; the hypotheses below hold
in particular for every fuel of at least `buf.length + 1`). -/
theorem parsePartsGo_fuel_eq :
    ∀ (f g : Nat) (buf : List Nat) (off : Nat),
    buf.length + 1 ≤ off + f → buf.length + 1 ≤ off + g →
    parsePartsGo buf f off = parsePartsGo buf g off := by
  intro f
  induction f with
  | zero =>
    intro g buf off hf _
    rw [parsePartsGo_big_off buf g off (by omega)]
    rfl
  | succ f ih =>
    intro g buf off hf hg
    cases g with
    | zero =>
      rw [parsePartsGo_big_off buf (f + 1) off (by omega)]
      rfl
    | succ g =>
      simp only [parsePartsGo]
      by_cases hguard : off + 12 ≤ buf.length
      · rw [if_pos hguard, if_pos hguard]
        by_cases hend : asciiAt buf off 4 = magicENDdot
            ∨ asciiAt buf off 4 = magicENDS
        · rw [if_pos hend, if_pos hend]
        · rw [if_neg hend, if_neg hend]
          by_cases hpe : asciiAt buf off 4 = magicPART
              ∨ asciiAt buf off 4 = magicEXEC
          · rw [if_pos hpe, if_pos hpe]
            cases h32 : readU32 buf (off + 32) with
            | error e => simp only [h32]
            | ok memaddr =>
            simp only [h32]
            cases h36 : readU32 buf (off + 36) with
            | error e => simp only [h36]
            | ok index =>
            simp only [h36]
            cases h40 : readU32 buf (off + 40) with
            | error e => simp only [h40]
            | ok baseaddr =>
            simp only [h40]
            cases h44 : readU32 buf (off + 44) with
            | error e => simp only [h44]
            | ok entryaddr =>
            simp only [h44]
            cases h48 : readU32 buf (off + 48) with
            | error e => simp only [h48]
            | ok data_size =>
            simp only [h48]
            cases h52 : readU32 buf (off + 52) with
            | error e => simp only [h52]
            | ok part_size =>
            simp only [h52]
            cases hcrc : readU32 buf (off + 56 + data_size) with
            | error e => simp only [hcrc]
            | ok crcClaim =>
            simp only [hcrc]
            rw [ih g buf (off + 56 + data_size + 8) (by omega) (by omega)]
          · rw [if_neg hpe, if_neg hpe]
      · rw [if_neg hguard, if_neg hguard]

theorem readU32_extend (buf extra : List Nat) (x v : Nat)
    (h : readU32 buf x = .ok v) : readU32 (buf ++ extra) x = .ok v := by
  rw [readU32_eq_ok] at h ⊢
  obtain ⟨hb, hv⟩ := h
  refine ⟨by simp only [List.length_append]; omega, ?_⟩
  unfold readU32d at hv ⊢
  rw [bytesAt_append_left _ _ _ _ (by omega)]
  exact hv

theorem asciiAt_extend (buf extra : List Nat) (o n : Nat)
    (h : o + n ≤ buf.length) :
    asciiAt (buf ++ extra) o n = asciiAt buf o n := by
  unfold asciiAt
  rw [bytesAt_append_left _ _ _ _ h]

theorem readU32_shift (w C : List Nat) (x v : Nat)
    (h : readU32 C x = .ok v) :
    readU32 (w ++ C) (w.length + x) = .ok v := by
  rw [readU32_eq_ok] at h ⊢
  obtain ⟨hb, hv⟩ := h
  refine ⟨by simp only [List.length_append]; omega, ?_⟩
  unfold readU32d at hv ⊢
  rw [bytesAt_append_right]
  exact hv

/-- Appending bytes after a container that decodes to a terminal
signature leaves the segment walk unchanged: every read the walk makes
lies inside the original buffer. -/
theorem parsePartsGo_extend (buf extra : List Nat) :
    ∀ (f o : Nat) (ps : List PartInfo) (e : Nat),
    parsePartsGo buf f o = .ok (ps, e) →
    (asciiAt buf e 4 = magicENDdot ∨ asciiAt buf e 4 = magicENDS) →
    e + 4 ≤ buf.length →
    parsePartsGo (buf ++ extra) f o = .ok (ps, e) := by
  intro f
  induction f with
  | zero =>
    intro o ps e h _ _
    simp only [parsePartsGo] at h ⊢
    exact h
  | succ f ih =>
    intro o ps e h hterm hbound
    rcases parsePartsGo_succ_ok buf f o ps e h with
      ⟨hg, hps, he⟩ | ⟨hg, hend, hps, he⟩ |
      ⟨hg, hend, hpe, memaddr, index, baseaddr, entryaddr, data_size,
        part_size, crcClaim, rest, h32, h36, h40, h44, h48, h52, hcrc,
        hrec, hps⟩
    · rw [hps, he]
      rw [he] at hterm hbound
      simp only [parsePartsGo]
      by_cases hg' : o + 12 ≤ (buf ++ extra).length
      · rw [if_pos hg']
        have em : asciiAt (buf ++ extra) o 4 = asciiAt buf o 4 :=
          asciiAt_extend buf extra o 4 (by omega)
        rw [em, if_pos hterm]
      · rw [if_neg hg']
    · rw [hps, he]
      simp only [parsePartsGo]
      have hg' : o + 12 ≤ (buf ++ extra).length := by
        simp only [List.length_append]; omega
      rw [if_pos hg']
      have em : asciiAt (buf ++ extra) o 4 = asciiAt buf o 4 :=
        asciiAt_extend buf extra o 4 (by omega)
      rw [em, if_pos hend]
    · have hb32 := ((readU32_eq_ok _ _ _).1 h32).1
      have hbcrc := ((readU32_eq_ok _ _ _).1 hcrc).1
      simp only [parsePartsGo]
      have hg' : o + 12 ≤ (buf ++ extra).length := by
        simp only [List.length_append]; omega
      rw [if_pos hg']
      have em : asciiAt (buf ++ extra) o 4 = asciiAt buf o 4 :=
        asciiAt_extend buf extra o 4 (by omega)
      rw [em, if_neg hend, if_pos hpe]
      have e32 := readU32_extend buf extra _ _ h32
      have e36 := readU32_extend buf extra _ _ h36
      have e40 := readU32_extend buf extra _ _ h40
      have e44 := readU32_extend buf extra _ _ h44
      have e48 := readU32_extend buf extra _ _ h48
      have e52 := readU32_extend buf extra _ _ h52
      have ecrc := readU32_extend buf extra _ _ hcrc
      have ename : readCStringBytes (buf ++ extra) (o + 4) 16 =
          readCStringBytes buf (o + 4) 16 := by
        unfold readCStringBytes
        rw [bytesAt_append_left _ _ _ _ (by omega)]
      have edata : bytesAt (buf ++ extra) (o + 56) data_size =
          bytesAt buf (o + 56) data_size :=
        bytesAt_append_left _ _ _ _ (by omega)
      have ecalc : bytesAt (buf ++ extra) o (56 + data_size) =
          bytesAt buf o (56 + data_size) :=
        bytesAt_append_left _ _ _ _ (by omega)
      have erec := ih (o + 56 + data_size + 8) rest e hrec hterm hbound
      simp only [e32, e36, e40, e44, e48, e52, ecrc, ename, edata, ecalc,
        erec]
      rw [hps]

/-- Prepending bytes before the walk region shifts the walk without
changing the decoded segments: every read shifts with the offset. -/
theorem parsePartsGo_shift (w C : List Nat) :
    ∀ (f o : Nat) (ps : List PartInfo) (e : Nat),
    parsePartsGo C f o = .ok (ps, e) →
    parsePartsGo (w ++ C) f (w.length + o) = .ok (ps, w.length + e) := by
  intro f
  induction f with
  | zero =>
    intro o ps e h
    simp only [parsePartsGo] at h ⊢
    injection h with h
    injection h with h1 h2
    rw [h1, h2]
  | succ f ih =>
    intro o ps e h
    rcases parsePartsGo_succ_ok C f o ps e h with
      ⟨hg, hps, he⟩ | ⟨hg, hend, hps, he⟩ |
      ⟨hg, hend, hpe, memaddr, index, baseaddr, entryaddr, data_size,
        part_size, crcClaim, rest, h32, h36, h40, h44, h48, h52, hcrc,
        hrec, hps⟩
    · rw [hps, he]
      simp only [parsePartsGo]
      rw [if_neg (by simp only [List.length_append]; omega)]
    · rw [hps, he]
      simp only [parsePartsGo]
      rw [if_pos (by simp only [List.length_append]; omega)]
      have em : asciiAt (w ++ C) (w.length + o) 4 = asciiAt C o 4 :=
        asciiAt_append_right w C o 4
      rw [em, if_pos hend]
    · simp only [parsePartsGo]
      rw [if_pos (by simp only [List.length_append]; omega)]
      have em : asciiAt (w ++ C) (w.length + o) 4 = asciiAt C o 4 :=
        asciiAt_append_right w C o 4
      rw [em, if_neg hend, if_pos hpe]
      have e32 : readU32 (w ++ C) (w.length + o + 32) = .ok memaddr := by
        have h1 := readU32_shift w C _ _ h32
        rwa [show w.length + (o + 32) = w.length + o + 32 by omega] at h1
      have e36 : readU32 (w ++ C) (w.length + o + 36) = .ok index := by
        have h1 := readU32_shift w C _ _ h36
        rwa [show w.length + (o + 36) = w.length + o + 36 by omega] at h1
      have e40 : readU32 (w ++ C) (w.length + o + 40) = .ok baseaddr := by
        have h1 := readU32_shift w C _ _ h40
        rwa [show w.length + (o + 40) = w.length + o + 40 by omega] at h1
      have e44 : readU32 (w ++ C) (w.length + o + 44) = .ok entryaddr := by
        have h1 := readU32_shift w C _ _ h44
        rwa [show w.length + (o + 44) = w.length + o + 44 by omega] at h1
      have e48 : readU32 (w ++ C) (w.length + o + 48) = .ok data_size := by
        have h1 := readU32_shift w C _ _ h48
        rwa [show w.length + (o + 48) = w.length + o + 48 by omega] at h1
      have e52 : readU32 (w ++ C) (w.length + o + 52) = .ok part_size := by
        have h1 := readU32_shift w C _ _ h52
        rwa [show w.length + (o + 52) = w.length + o + 52 by omega] at h1
      have ecrc : readU32 (w ++ C) (w.length + o + 56 + data_size)
          = .ok crcClaim := by
        have h1 := readU32_shift w C _ _ hcrc
        rwa [show w.length + (o + 56 + data_size)
          = w.length + o + 56 + data_size by omega] at h1
      have ename : readCStringBytes (w ++ C) (w.length + o + 4) 16 =
          readCStringBytes C (o + 4) 16 := by
        unfold readCStringBytes
        rw [show w.length + o + 4 = w.length + (o + 4) by omega,
          bytesAt_append_right]
      have edata : bytesAt (w ++ C) (w.length + o + 56) data_size =
          bytesAt C (o + 56) data_size := by
        rw [show w.length + o + 56 = w.length + (o + 56) by omega,
          bytesAt_append_right]
      have ecalc : bytesAt (w ++ C) (w.length + o) (56 + data_size) =
          bytesAt C o (56 + data_size) := bytesAt_append_right w C o _
      have erec : parsePartsGo (w ++ C) f (w.length + o + 56 + data_size + 8)
          = .ok (rest, w.length + e) := by
        have h1 := ih (o + 56 + data_size + 8) rest e hrec
        rwa [show w.length + (o + 56 + data_size + 8)
          = w.length + o + 56 + data_size + 8 by omega] at h1
      simp only [e32, e36, e40, e44, e48, e52, ecrc, ename, edata, ecalc,
        erec]
      rw [hps]

theorem openPredB_extend (buf extra : List Nat) (j : Nat)
    (h : j + 268 ≤ buf.length) :
    openPredB (buf ++ extra) j = openPredB buf j := by
  unfold openPredB headerCheck readU32d
  rw [bytesAt_append_left _ _ _ _ (show j + 4 ≤ buf.length by omega),
    bytesAt_append_left _ _ _ _ (show j + 260 + 4 ≤ buf.length by omega),
    bytesAt_append_left _ _ _ _ (show j + 260 ≤ buf.length by omega),
    decide_eq_true (p := j + 268 ≤ (buf ++ extra).length)
      (by simp only [List.length_append]; omega),
    decide_eq_true h]

theorem openPredB_shift (w C : List Nat) (j : Nat) :
    openPredB (w ++ C) (w.length + j) = openPredB C j := by
  unfold openPredB headerCheck readU32d
  have h1 : bytesAt (w ++ C) (w.length + j) 4 = bytesAt C j 4 :=
    bytesAt_append_right w C j 4
  have h2 : bytesAt (w ++ C) (w.length + j) 260 = bytesAt C j 260 :=
    bytesAt_append_right w C j 260
  have h3 : bytesAt (w ++ C) (w.length + j + 260) 4
      = bytesAt C (j + 260) 4 := by
    rw [show w.length + j + 260 = w.length + (j + 260) by omega]
    exact bytesAt_append_right w C (j + 260) 4
  have h4 : decide (w.length + j + 268 ≤ (w ++ C).length)
      = decide (j + 268 ≤ C.length) := by
    rw [decide_eq_decide]
    simp only [List.length_append]
    omega
  rw [h1, h2, h3, h4]

/-- C4 (amended): the decoder ignores every byte after the 12-byte
signature block.  It takes no public key, performs no RSA
verification, reports no presence status for a trailing 256- or
512-byte block, and returns a result identical to decoding without the
trailing bytes; `signatureValid` is the checksum comparison alone.
(Stated for containers whose header is found by the direct scan.) -/
theorem C4_no_rsa_gating (buf extra : List Nat) (img : FirmwareImage)
    (p : Nat)
    (hopen : openScan buf (buf.length + 1) 0 = some p)
    (h : parseFirmware buf = .ok img) :
    parseFirmware (buf ++ extra) = .ok img := by
  obtain ⟨h0, ps, off, sigStored, hloc, hgo, hsig, hst, himg⟩ :=
    parseFirmware_ok_inv buf img h
  have hlp : locateHeader buf = some p := by
    simp only [locateHeader, hopen]
  have hh0 : h0 = p := by
    rw [hloc] at hlp
    exact Option.some.inj hlp
  subst hh0
  obtain ⟨-, hOp, hOmin⟩ :=
    openScan_some_of buf (buf.length + 1) 0 h0 (by omega) hopen
  have hb268 : h0 + 268 ≤ buf.length :=
    ((headerCheck_true buf h0).1 ((openPredB_true buf h0).1 hOp).2).1
  have hpredExt : ∀ j, j ≤ h0 →
      openPredB (buf ++ extra) j = openPredB buf j := fun j hj =>
    openPredB_extend buf extra j (by omega)
  have hopen' : openScan (buf ++ extra) ((buf ++ extra).length + 1) 0
      = some h0 := by
    cases hsx : openScan (buf ++ extra) ((buf ++ extra).length + 1) 0 with
    | none =>
      have hn := openScan_none_of (buf ++ extra) _ 0 (by omega) hsx h0
        (by omega)
      rw [hpredExt h0 (Nat.le_refl h0), hOp] at hn
      cases hn
    | some q =>
      obtain ⟨-, hq, hqmin⟩ :=
        openScan_some_of (buf ++ extra) _ 0 q (by omega) hsx
      rcases Nat.lt_trichotomy q h0 with hlt | heq | hgt
      · rw [hpredExt q (by omega)] at hq
        have hc := hOmin q (by omega) hlt
        rw [hq] at hc
        cases hc
      · rw [heq]
      · have hc := hqmin h0 (by omega) hgt
        rw [hpredExt h0 (Nat.le_refl h0), hOp] at hc
        cases hc
  have hstb := ((readU32_eq_ok _ _ _).1 hst).1
  have hgo2 : parsePartsGo buf ((buf ++ extra).length + 1) (h0 + 268)
      = .ok (ps, off) := by
    rw [← parsePartsGo_fuel_eq (buf.length + 1) ((buf ++ extra).length + 1)
      buf (h0 + 268) (by omega)
      (by simp only [List.length_append]; omega)]
    exact hgo
  have hgo' : parsePartsGo (buf ++ extra) ((buf ++ extra).length + 1)
      (h0 + 268) = .ok (ps, off) :=
    parsePartsGo_extend buf extra _ _ _ _ hgo2 hsig (by omega)
  have hver : readCStringBytes (buf ++ extra) (h0 + 4) 256
      = readCStringBytes buf (h0 + 4) 256 := by
    unfold readCStringBytes
    rw [bytesAt_append_left _ _ _ _ (by omega)]
  have hsig' : asciiAt (buf ++ extra) off 4 = asciiAt buf off 4 :=
    asciiAt_extend _ _ _ _ (by omega)
  have hst' := readU32_extend buf extra _ _ hst
  have hwin : bytesAt (buf ++ extra) 0 off = bytesAt buf 0 off :=
    bytesAt_append_left _ _ _ _ (by omega)
  simp only [parseFirmware, locateHeader, hopen', hgo', hver, hsig']
  rw [if_pos hsig]
  simp only [hst', hwin]
  rw [himg]

/-- C4 witness: appending a 256-byte block (the claimed RSA-signature
size) of zeroes to the demonstration firmware leaves the decode result
unchanged, with `signatureValid` still true. -/
theorem C4_no_rsa_gating_witness :
    parseFirmware (demoFirmware ++ zeros 256) =
      .ok { version := encodedVersion demoVersion,
            parts := [demoPart].map encodedPartInfo,
            signatureValid := true }
    ∧ (parseFirmware demoFirmware).map (·.signatureValid) = .ok true :=
  ⟨C4_no_rsa_gating demoFirmware (zeros 256) _ 0 (by decide)
    (parse_build_eq [demoPart] demoVersion (by decide)), by decide⟩

/-- C4 counterexample: a trailing 256-byte all-zero block — certainly
not a valid RSA signature under any key — is not decoded, produces no
presence/status report (the decode result is literally identical to
the result without the block, and `FirmwareImage` has no RSA field),
and nothing is ANDed into `signatureValid`, which stays true. -/
theorem C4_counterexample :
    parseFirmware (demoFirmware ++ zeros 256) = parseFirmware demoFirmware
    ∧ (parseFirmware (demoFirmware ++ zeros 256)).map (·.signatureValid)
        = .ok true :=
  ⟨by decide, by decide⟩

/-- C5 (amended): prepending 1..4095 bytes containing no spurious
CRC-passing header-magic candidate before a valid container (one whose
header the direct scan finds) leaves the decoded version and segment
sequence unchanged.  `signatureValid` is not preserved in general: the
signature CRC is computed from the start of the whole buffer (offset
0), so it changes with the prepended bytes — see the counterexample. -/
theorem C5_prepend_robustness (w C : List Nat) (img : FirmwareImage)
    (p : Nat)
    (hw1 : 1 ≤ w.length) (hw2 : w.length ≤ 4095)
    (hopen : openScan C (C.length + 1) 0 = some p)
    (hC : parseFirmware C = .ok img)
    (hspur : ∀ j, j < w.length → openPredB (w ++ C) j = false) :
    ∃ img', parseFirmware (w ++ C) = .ok img'
      ∧ img'.version = img.version ∧ img'.parts = img.parts := by
  obtain ⟨h0, ps, off, sigStored, hloc, hgo, hsig, hst, himg⟩ :=
    parseFirmware_ok_inv C img hC
  have hlp : locateHeader C = some p := by
    simp only [locateHeader, hopen]
  have hh0 : h0 = p := by
    rw [hloc] at hlp
    exact Option.some.inj hlp
  subst hh0
  obtain ⟨-, hOp, hOmin⟩ :=
    openScan_some_of C (C.length + 1) 0 h0 (by omega) hopen
  have hopen' : openScan (w ++ C) ((w ++ C).length + 1) 0
      = some (w.length + h0) := by
    cases hsx : openScan (w ++ C) ((w ++ C).length + 1) 0 with
    | none =>
      have hn := openScan_none_of (w ++ C) _ 0 (by omega) hsx
        (w.length + h0) (by omega)
      rw [openPredB_shift w C h0, hOp] at hn
      cases hn
    | some q =>
      obtain ⟨-, hq, hqmin⟩ :=
        openScan_some_of (w ++ C) _ 0 q (by omega) hsx
      by_cases hqw : q < w.length
      · have hc := hspur q hqw
        rw [hq] at hc
        cases hc
      · obtain ⟨j, rfl⟩ : ∃ j, q = w.length + j :=
          ⟨q - w.length, by omega⟩
        rw [openPredB_shift w C j] at hq
        rcases Nat.lt_trichotomy j h0 with hlt | heq | hgt
        · have hc := hOmin j (by omega) hlt
          rw [hq] at hc
          cases hc
        · rw [heq]
        · have hc := hqmin (w.length + h0) (by omega) (by omega)
          rw [openPredB_shift w C h0, hOp] at hc
          cases hc
  have hgo2 : parsePartsGo C ((w ++ C).length + 1) (h0 + 268)
      = .ok (ps, off) := by
    rw [← parsePartsGo_fuel_eq (C.length + 1) ((w ++ C).length + 1) C
      (h0 + 268) (by omega) (by simp only [List.length_append]; omega)]
    exact hgo
  have hgo' : parsePartsGo (w ++ C) ((w ++ C).length + 1)
      (w.length + h0 + 268) = .ok (ps, w.length + off) := by
    have h1 := parsePartsGo_shift w C ((w ++ C).length + 1) (h0 + 268)
      ps off hgo2
    rwa [show w.length + (h0 + 268) = w.length + h0 + 268 by omega] at h1
  have hver : readCStringBytes (w ++ C) (w.length + h0 + 4) 256
      = readCStringBytes C (h0 + 4) 256 := by
    unfold readCStringBytes
    rw [show w.length + h0 + 4 = w.length + (h0 + 4) by omega,
      bytesAt_append_right]
  have hsigm : asciiAt (w ++ C) (w.length + off) 4 = asciiAt C off 4 :=
    asciiAt_append_right w C off 4
  have hst' : readU32 (w ++ C) (w.length + off + 4) = .ok sigStored := by
    have h1 := readU32_shift w C (off + 4) sigStored hst
    rwa [show w.length + (off + 4) = w.length + off + 4 by omega] at h1
  refine ⟨{ version := readCStringBytes C (h0 + 4) 256, parts := ps,
            signatureValid := decide (sigStored
              = crc32u (bytesAt (w ++ C) 0 (w.length + off))) }, ?_, ?_, ?_⟩
  · simp only [parseFirmware, locateHeader, hopen', hgo', hver, hsigm]
    rw [if_pos hsig]
    simp only [hst']
  · rw [himg]
  · rw [himg]

/-- C5 witness: prepending a single zero byte to the demonstration
firmware preserves the decoded version and segment sequence. -/
theorem C5_prepend_robustness_witness :
    ∃ img', parseFirmware ([0] ++ demoFirmware) = .ok img'
      ∧ img'.version =
          (FirmwareImage.mk (encodedVersion demoVersion)
            ([demoPart].map encodedPartInfo) true).version
      ∧ img'.parts =
          (FirmwareImage.mk (encodedVersion demoVersion)
            ([demoPart].map encodedPartInfo) true).parts :=
  C5_prepend_robustness [0] demoFirmware _ 0 (by decide) (by decide)
    (by decide) (parse_build_eq [demoPart] demoVersion (by decide))
    (by decide)

/-- C5 counterexample: prepending one zero byte — which contains no
CRC-passing header-magic candidate — to a valid container flips
`signatureValid` from true to false, because the signature CRC is
computed from offset 0 of the whole buffer; the decoded content is
therefore not unchanged, contradicting the claim as stated. -/
theorem C5_counterexample :
    (parseFirmware demoFirmware).map (·.signatureValid) = .ok true
    ∧ (parseFirmware ([0] ++ demoFirmware)).map (·.signatureValid)
        = .ok false
    ∧ openPredB ([0] ++ demoFirmware) 0 = false
    ∧ (1 : Nat) ≤ 4095 :=
  ⟨by decide, by decide, by decide, by decide⟩

/-- Structural well-formedness, following the claim's words: a located
header, only known segment magics during the walk, every read in
bounds, and a valid terminal magic whose stored checksum is readable.
No checksum comparison appears anywhere in this predicate. -/
def structGo (buf : List Nat) : Nat → Nat → Bool
  | 0, _ => false
  | fuel + 1, off =>
    if off + 12 ≤ buf.length then
      if asciiAt buf off 4 = magicENDdot ∨ asciiAt buf off 4 = magicENDS
      then true
      else
        if asciiAt buf off 4 = magicPART ∨ asciiAt buf off 4 = magicEXEC
        then
          if off + 56 ≤ buf.length then
            if off + 56 + readU32d buf (off + 48) + 4 ≤ buf.length then
              structGo buf fuel (off + 56 + readU32d buf (off + 48) + 8)
            else false
          else false
        else false
    else
      decide (asciiAt buf off 4 = magicENDdot
          ∨ asciiAt buf off 4 = magicENDS)
        && decide (off + 8 ≤ buf.length)

def structurallyWellFormed (buf : List Nat) : Bool :=
  match locateHeader buf with
  | none => false
  | some h => structGo buf (buf.length + 1) (h + 268)

/-- Structural well-formedness of the walk region implies the walk
succeeds — no checksum condition is needed — and the walk stops at a
readable terminal signature. -/
theorem structGo_ok :
    ∀ (fuel : Nat) (buf : List Nat) (off : Nat),
    structGo buf fuel off = true →
    ∃ ps e, parsePartsGo buf fuel off = .ok (ps, e)
      ∧ (asciiAt buf e 4 = magicENDdot ∨ asciiAt buf e 4 = magicENDS)
      ∧ e + 8 ≤ buf.length
      ∧ ∀ q ∈ ps, q.crcValid = decide (q.crcClaim = q.crcCalc) := by
  intro fuel
  induction fuel with
  | zero => intro buf off h; cases h
  | succ f ih =>
    intro buf off h
    simp only [structGo] at h
    by_cases hg : off + 12 ≤ buf.length
    · rw [if_pos hg] at h
      by_cases hend : asciiAt buf off 4 = magicENDdot
          ∨ asciiAt buf off 4 = magicENDS
      · refine ⟨[], off, ?_, hend, by omega, by simp⟩
        simp only [parsePartsGo]
        rw [if_pos hg, if_pos hend]
      · rw [if_neg hend] at h
        by_cases hpe : asciiAt buf off 4 = magicPART
            ∨ asciiAt buf off 4 = magicEXEC
        · rw [if_pos hpe] at h
          by_cases h56 : off + 56 ≤ buf.length
          · rw [if_pos h56] at h
            by_cases hd : off + 56 + readU32d buf (off + 48) + 4
                ≤ buf.length
            · rw [if_pos hd] at h
              obtain ⟨ps, e, hgo, hterm, hbound, hflags⟩ :=
                ih buf (off + 56 + readU32d buf (off + 48) + 8) h
              refine ⟨PartInfo.mk
                  (PartHeader.mk (asciiAt buf off 4)
                    (readCStringBytes buf (off + 4) 16)
                    (readU32d buf (off + 32)) (readU32d buf (off + 36))
                    (readU32d buf (off + 40)) (readU32d buf (off + 44))
                    (readU32d buf (off + 48)) (readU32d buf (off + 52)))
                  (bytesAt buf (off + 56) (readU32d buf (off + 48)))
                  (readU32d buf (off + 56 + readU32d buf (off + 48)))
                  (crc32u (bytesAt buf off (56 + readU32d buf (off + 48))))
                  (decide (readU32d buf (off + 56 + readU32d buf (off + 48))
                    = crc32u (bytesAt buf off
                        (56 + readU32d buf (off + 48))))) :: ps,
                e, ?_, hterm, hbound, ?_⟩
              · simp only [parsePartsGo]
                rw [if_pos hg, if_neg hend, if_pos hpe]
                have r32 : readU32 buf (off + 32)
                    = .ok (readU32d buf (off + 32)) :=
                  (readU32_eq_ok _ _ _).2 ⟨by omega, rfl⟩
                have r36 : readU32 buf (off + 36)
                    = .ok (readU32d buf (off + 36)) :=
                  (readU32_eq_ok _ _ _).2 ⟨by omega, rfl⟩
                have r40 : readU32 buf (off + 40)
                    = .ok (readU32d buf (off + 40)) :=
                  (readU32_eq_ok _ _ _).2 ⟨by omega, rfl⟩
                have r44 : readU32 buf (off + 44)
                    = .ok (readU32d buf (off + 44)) :=
                  (readU32_eq_ok _ _ _).2 ⟨by omega, rfl⟩
                have r48 : readU32 buf (off + 48)
                    = .ok (readU32d buf (off + 48)) :=
                  (readU32_eq_ok _ _ _).2 ⟨by omega, rfl⟩
                have r52 : readU32 buf (off + 52)
                    = .ok (readU32d buf (off + 52)) :=
                  (readU32_eq_ok _ _ _).2 ⟨by omega, rfl⟩
                have rcrc : readU32 buf (off + 56 + readU32d buf (off + 48))
                    = .ok (readU32d buf (off + 56 + readU32d buf (off + 48))) :=
                  (readU32_eq_ok _ _ _).2 ⟨by omega, rfl⟩
                simp only [r32, r36, r40, r44, r48, r52, rcrc, hgo]
              · intro q hq
                rcases List.mem_cons.1 hq with rfl | hqt
                · rfl
                · exact hflags q hqt
            · rw [if_neg hd] at h; cases h
          · rw [if_neg h56] at h; cases h
        · rw [if_neg hpe] at h; cases h
    · rw [if_neg hg] at h
      rw [Bool.and_eq_true, decide_eq_true_eq, decide_eq_true_eq] at h
      refine ⟨[], off, ?_, h.1, h.2, by simp⟩
      exact parsePartsGo_big_off buf (f + 1) off (by omega)

/-- C6: for every structurally well-formed buffer — located header,
known segment magics, all reads in bounds, valid terminal magic —
decoding succeeds; checksum or signature mismatches never raise a
decode error.  Every segment is fully decoded with its whole payload,
and `crcValid` is just the reported comparison of the stored claim with
the computed CRC, which may be false. -/
theorem C6_checksum_flag (buf : List Nat)
    (h : structurallyWellFormed buf = true) :
    ∃ img, parseFirmware buf = .ok img
      ∧ ∀ q ∈ img.parts,
          q.data.length = q.header.data_size
          ∧ q.crcValid = decide (q.crcClaim = q.crcCalc) := by
  unfold structurallyWellFormed at h
  cases hloc : locateHeader buf with
  | none => rw [hloc] at h; cases h
  | some h0 =>
    rw [hloc] at h
    obtain ⟨ps, e, hgo, hterm, hbound, hflags⟩ :=
      structGo_ok (buf.length + 1) buf (h0 + 268) h
    have hst : readU32 buf (e + 4) = .ok (readU32d buf (e + 4)) :=
      (readU32_eq_ok _ _ _).2 ⟨by omega, rfl⟩
    refine ⟨FirmwareImage.mk (readCStringBytes buf (h0 + 4) 256) ps
      (decide (readU32d buf (e + 4) = crc32u (bytesAt buf 0 e))), ?_, ?_⟩
    · simp only [parseFirmware, hloc, hgo]
      rw [if_pos hterm]
      simp only [hst]
    · intro q hq
      exact ⟨(parsePartsGo_ok_parts _ buf _ ps e hgo q hq).1,
        hflags q hq⟩

/-- Tampered demonstration firmware: one byte of the stored segment
checksum claim (offset 327) is overwritten, so the claim no longer
matches the computed CRC. -/
def demoTampered : List Nat :=
  (buildFirmware [demoPart] demoVersion).set 327 170

/-- C6 witness: the tampered container is structurally well-formed and
decodes successfully even though its only segment's checksum claim is
wrong (`crcValid = false`) and the signature checksum no longer matches
(`signatureValid = false`) — mismatches are reported flags, not decode
errors. -/
theorem C6_checksum_flag_witness :
    structurallyWellFormed demoTampered = true
    ∧ (∃ img, parseFirmware demoTampered = .ok img
        ∧ ∀ q ∈ img.parts,
            q.data.length = q.header.data_size
            ∧ q.crcValid = decide (q.crcClaim = q.crcCalc))
    ∧ (parseFirmware demoTampered).map (fun i => i.parts.map (·.crcValid))
        = .ok [false]
    ∧ (parseFirmware demoTampered).map (·.signatureValid) = .ok false :=
  ⟨by decide, C6_checksum_flag demoTampered (by decide), by decide,
    by decide⟩
